import Mathlib

/-!
# Verification of the HouseHold Management System record core

Shallow embedding of the record-management and aggregation subsystem of
`Project.py`: the `Expense` dataclass, `FileStorage.load_all/save_all`,
`SectionManager` (id assignment, add / bulk add / update / delete, category
set, CSV import parsing and validation) and `Analyzer.monthly_summary`.

Modelling conventions:
* Python `float` amounts are modelled as exact rationals (`ℚ`);
* Python `int` is `ℤ`;
* a CSV file on disk is `Option (List (List String))` — `none` is an absent
  file, otherwise the list of rows (each row a list of cell strings); CSV
  quoting is abstracted away by keeping cells as separate strings;
* loosely-typed dictionary values that may be either strings or numbers
  (the rows produced by `parse_csv_file` and consumed by
  `validate_expenses` / `bulk_add_expenses`) are a sum type `PyVal`;
* the side effect `storage.save_all(...)` is recorded in a `saveLog` field so
  that persistence counts can be stated;
* validation error strings such as `"Row 3: Amount must be positive"` are
  modelled as a row number paired with an `ErrKind` tag naming the message
  text that the Python code produces.
-/

namespace HMS

/-! ## Characters, digits and low-level parsing -/

/-- Numeric value of a decimal digit character. -/
def digitVal (c : Char) : ℕ := c.toNat - '0'.toNat

/-- The character for a single decimal digit. -/
def digitChar (n : ℕ) : Char := Char.ofNat ('0'.toNat + n)

/-- Decimal digit test, as Python's `str.isdigit` on ASCII. -/
def isDigit (c : Char) : Bool := '0' ≤ c ∧ c ≤ '9'

/-- Decimal digits of a natural number, most significant first. -/
def natDigits (n : ℕ) : List Char :=
  if h : n < 10 then [digitChar n]
  else natDigits (n / 10) ++ [digitChar (n % 10)]
  decreasing_by exact Nat.div_lt_self (by omega) (by omega)

/-- Decimal rendering of a natural number, as Python `str`. -/
def natRepr (n : ℕ) : String := String.mk (natDigits n)

/-- Decimal rendering of an integer, as Python `str`. -/
def intRepr (i : ℤ) : String :=
  if i < 0 then String.mk ('-' :: natDigits i.natAbs) else natRepr i.toNat

/-- Fold a list of digit characters into a natural number. -/
def digitsToNat (l : List Char) : ℕ := l.foldl (fun a c => 10 * a + digitVal c) 0

/-- Parse a non-empty all-digit character list. -/
def parseNatChars (l : List Char) : Option ℕ :=
  if l ≠ [] ∧ l.all isDigit then some (digitsToNat l) else none

/-- Python `int(s)` on the strings this system produces: an optional `-` sign
followed by decimal digits. -/
def parseInt (s : String) : Option ℤ :=
  match s.toList with
  | [] => none
  | c :: rest =>
    if c = '-' then (parseNatChars rest).map (fun n : ℕ => -(n : ℤ))
    else (parseNatChars (c :: rest)).map (fun n : ℕ => (n : ℤ))

/-! ## Calendar dates (`datetime.date`) -/

/-- A calendar date as Python's `datetime.date` stores it. Values constructed
by `fromisoformat` always satisfy `Date.Valid`. -/
structure Date where
  year : ℕ
  month : ℕ
  day : ℕ
  deriving DecidableEq, Repr

/-- Gregorian leap-year test, as Python's `calendar.isleap`. -/
def isLeap (y : ℕ) : Bool := (y % 4 = 0 ∧ y % 100 ≠ 0) ∨ y % 400 = 0

/-- Days in a month, as CPython's `days_in_month`. -/
def daysInMonth (y m : ℕ) : ℕ :=
  if m = 2 then (if isLeap y then 29 else 28)
  else if m = 4 ∨ m = 6 ∨ m = 9 ∨ m = 11 then 30 else 31

/-- The range checks `datetime.date` performs at construction. -/
def Date.Valid (d : Date) : Prop :=
  1 ≤ d.year ∧ d.year ≤ 9999 ∧ 1 ≤ d.month ∧ d.month ≤ 12 ∧
    1 ≤ d.day ∧ d.day ≤ daysInMonth d.year d.month

instance (d : Date) : Decidable d.Valid := by
  unfold Date.Valid; infer_instance

/-- Left-pad a natural number rendering with zeros to width `w`. -/
def padNat (w n : ℕ) : List Char :=
  List.replicate (w - (natDigits n).length) '0' ++ natDigits n

/-- `date.isoformat()`: `YYYY-MM-DD`. -/
def Date.isoformat (d : Date) : String :=
  String.mk (padNat 4 d.year ++ '-' :: padNat 2 d.month ++ '-' :: padNat 2 d.day)

/-- `datetime.date.fromisoformat`: exactly `YYYY-MM-DD` with digit runs of
width 4, 2, 2, then the constructor's range checks. -/
def Date.fromisoformat (s : String) : Option Date :=
  match s.toList with
  | [y1, y2, y3, y4, s1, m1, m2, s2, d1, d2] =>
    if ([y1, y2, y3, y4] ++ [m1, m2] ++ [d1, d2]).all isDigit ∧
        s1 = '-' ∧ s2 = '-' then
      let d : Date := ⟨digitsToNat [y1, y2, y3, y4], digitsToNat [m1, m2],
        digitsToNat [d1, d2]⟩
      if d.Valid then some d else none
    else none
  | _ => none

/-! ## Amounts: Python floats as rationals -/

/-- Round to the nearest integer, ties to even — the rounding used when a
float is formatted with `"%.2f"`. -/
def roundHalfEven (x : ℚ) : ℤ :=
  let f := ⌊x⌋
  let r := x - f
  if r < 1/2 then f
  else if 1/2 < r then f + 1
  else if 2 ∣ f then f else f + 1

/-- The cents value printed for an amount: `roundHalfEven (100 * a)`. -/
def cents (a : ℚ) : ℤ := roundHalfEven (100 * a)

/-- Render a non-negative cents count as `units.dd`. -/
def centsRepr (n : ℕ) : List Char :=
  natDigits (n / 100) ++ '.' :: padNat 2 (n % 100)

/-- Python `f"{a:.2f}"`: two fractional digits, round half to even. -/
def fmt2 (a : ℚ) : String :=
  let n := cents a
  if n < 0 then String.mk ('-' :: centsRepr n.natAbs)
  else String.mk (centsRepr n.toNat)

/-- A rational is a two-decimal value when 100·a is an integer. -/
def TwoDecimal (a : ℚ) : Prop := ∃ n : ℤ, (n : ℚ) = 100 * a

instance (a : ℚ) : Decidable (TwoDecimal a) :=
  decidable_of_iff ((((100 * a).den : ℤ) : ℚ) * a * 100 = (100 * a).num * 1 ∧
      (100 * a).den = 1) <| by
    constructor
    · rintro ⟨-, h⟩
      exact ⟨(100 * a).num, by rw [← Rat.num_div_den (100 * a), h]; simp⟩
    · rintro ⟨n, h⟩
      have hd : (100 * a).den = 1 := by rw [← h]; simp
      refine ⟨?_, hd⟩
      have := Rat.num_div_den (100 * a)
      rw [hd] at this; simp at this
      rw [hd]; push_cast; linarith

/-- The unsigned part of `float(s)`: integer digits, and optionally a dot
followed by fractional digits. -/
def parseFloatCore (l : List Char) : Option ℚ :=
  let ip := l.takeWhile (· ≠ '.')
  match l.dropWhile (· ≠ '.') with
  | [] => (parseNatChars ip).map (fun n : ℕ => (n : ℚ))
  | _ :: fp =>
    if (ip ++ fp) ≠ [] ∧ (ip ++ fp).all isDigit then
      some ((digitsToNat ip : ℚ) + (digitsToNat fp : ℚ) / (10 ^ fp.length))
    else none

/-- Parse a decimal literal: optional sign, integer digits, optional
fractional digits — the shapes of `float(s)` that this system reads and
writes. -/
def parseFloat (s : String) : Option ℚ :=
  match s.toList with
  | [] => none
  | c :: rest =>
    if c = '-' then (parseFloatCore rest).map (fun q => -q)
    else if c = '+' then parseFloatCore rest
    else parseFloatCore (c :: rest)

/-- Python `str.strip()`: remove leading and trailing whitespace. -/
def strip (s : String) : String :=
  String.mk (((s.toList.dropWhile Char.isWhitespace).reverse.dropWhile
    Char.isWhitespace).reverse)

/-! ## The `Expense` dataclass -/

/-- One financial record, as the `Expense` dataclass. -/
structure Expense where
  id : ℤ
  date : Date
  category : String
  description : String
  amount : ℚ
  deriving DecidableEq, Repr

/-- `Expense.to_row`: the five serialized cell strings. -/
def Expense.to_row (e : Expense) : List String :=
  [intRepr e.id, e.date.isoformat, e.category, e.description, fmt2 e.amount]

/-- `Expense.from_row` as a fallible operation: `int(row[0])`,
`date.fromisoformat(row[1])` and `float(row[4])` may each raise, which the
sole caller `load_all` catches. Requires a row of exactly five cells, the
check the caller performs first. -/
def Expense.from_row (row : List String) : Option Expense :=
  match row with
  | [c0, c1, c2, c3, c4] => do
    let i ← parseInt c0
    let d ← Date.fromisoformat c1
    let a ← parseFloat c4
    pure ⟨i, d, c2, c3, a⟩
  | _ => none

/-! ## `FileStorage` -/

/-- The backing CSV file: `none` when absent, otherwise the rows (header
included), each row a list of cell strings. -/
def CsvFile := Option (List (List String))

/-- The loop body of `FileStorage.load_all`: keep rows of length 5 that
parse, silently skip the rest. -/
def loadRows : List (List String) → List Expense
  | [] => []
  | row :: rest =>
    if row.length = 5 then
      match Expense.from_row row with
      | some e => e :: loadRows rest
      | none => loadRows rest
    else loadRows rest

/-- `FileStorage.load_all`: `[]` for an absent file, otherwise skip the
header row and run the tolerant row loop. -/
def load_all (f : CsvFile) : List Expense :=
  match f with
  | none => []
  | some rows => loadRows (rows.drop 1)

/-- The header row `FileStorage` writes. -/
def headers : List String := ["id", "date", "category", "description", "amount"]

/-- `FileStorage.save_all`: header row then one serialized row per record. -/
def save_all (expenses : List Expense) : CsvFile :=
  some (headers :: expenses.map Expense.to_row)

/-! ## Loosely-typed rows (`Dict` values from `parse_csv_file`) -/

/-- A loosely-typed dictionary value: a string cell or an already-coerced
number (as `parse_csv_file` stores for `amount`). -/
inductive PyVal where
  | str (s : String)
  | num (q : ℚ)
  deriving DecidableEq, Repr

/-- Python `float(v)`: identity on numbers, parse on strings; `none` is the
raised `ValueError`. -/
def pyFloat : PyVal → Option ℚ
  | .num q => some q
  | .str s => parseFloat s

/-- Python `v.strip()`: only defined on strings; `none` is the raised
`AttributeError`. -/
def pyStrip : PyVal → Option String
  | .str s => some (strip s)
  | .num _ => none

/-- Python `date.fromisoformat(v)`: only defined on strings; `none` is the
raised `TypeError`/`ValueError`. -/
def pyFromIso : PyVal → Option Date
  | .str s => Date.fromisoformat s
  | .num _ => none

/-- A candidate row as built by `parse_csv_file`: a dict with the four keys
`date`, `category`, `description`, `amount` always present. -/
structure RawRow where
  date : PyVal
  category : PyVal
  description : PyVal
  amount : PyVal
  deriving DecidableEq, Repr

/-! ## `SectionManager` -/

/-- The default category vocabulary used when a section loads empty. -/
def defaultCategories : Finset String :=
  {"Food", "Transport", "Rent", "Utilities", "Entertainment", "Misc"}

/-- In-memory state of one `SectionManager`, with the side effect
`self.storage.save_all(self.expenses)` recorded in `saveLog` (each entry is
the record list passed to one save call, in call order). -/
structure SectionManager where
  expenses : List Expense
  next_id : ℤ
  categories : Finset String
  saveLog : List (List Expense)
  deriving DecidableEq

/-- Python `max(iter, default=0)` over integers. -/
def listMaxD0 : List ℤ → ℤ
  | [] => 0
  | x :: xs => xs.foldl max x

/-- `SectionManager._compute_next_id`. -/
def compute_next_id (expenses : List Expense) : ℤ :=
  listMaxD0 (expenses.map (·.id)) + 1

/-- The `SectionManager` constructor, given the records `load_all` returned:
`next_id` from `_compute_next_id`, categories seeded from the records or the
default vocabulary when that set is empty. -/
def mkSectionManager (loaded : List Expense) : SectionManager :=
  let cs := (loaded.map (·.category)).toFinset
  { expenses := loaded
    next_id := compute_next_id loaded
    categories := if cs = ∅ then defaultCategories else cs
    saveLog := [] }

/-- Record one `storage.save_all(self.expenses)` call. -/
def SectionManager.save (m : SectionManager) : SectionManager :=
  { m with saveLog := m.saveLog ++ [m.expenses] }

/-- `SectionManager.add_expense`. -/
def SectionManager.add_expense (m : SectionManager) (date : Date)
    (category description : String) (amount : ℚ) :
    SectionManager × Expense :=
  let exp : Expense := ⟨m.next_id, date, category, description, amount⟩
  let m' : SectionManager :=
    { m with expenses := m.expenses ++ [exp]
             categories := insert category m.categories
             next_id := m.next_id + 1 }
  (m'.save, exp)

/-- The per-row `try` body of `bulk_add_expenses`: coerce date, strip
category and description, coerce amount; `none` is the caught exception. -/
def coerceRow (r : RawRow) : Option (Date × String × String × ℚ) := do
  let d ← pyFromIso r.date
  let c ← pyStrip r.category
  let ds ← pyStrip r.description
  let a ← pyFloat r.amount
  pure (d, c, ds, a)

/-- The `for` loop of `bulk_add_expenses`, threading the success and skip
counters. -/
def bulkLoop (m : SectionManager) (rows : List RawRow) (succ skip : ℕ) :
    SectionManager × ℕ × ℕ :=
  match rows with
  | [] => (m, succ, skip)
  | r :: rest =>
    match coerceRow r with
    | some (d, c, ds, a) =>
      let exp : Expense := ⟨m.next_id, d, c, ds, a⟩
      bulkLoop
        { m with expenses := m.expenses ++ [exp]
                 categories := insert c m.categories
                 next_id := m.next_id + 1 }
        rest (succ + 1) skip
    | none => bulkLoop m rest succ (skip + 1)

/-- `SectionManager.bulk_add_expenses`: run the loop, save once at the end
when at least one row was added, return `(success_count, skipped_count)`. -/
def SectionManager.bulk_add_expenses (m : SectionManager)
    (rows : List RawRow) : SectionManager × ℕ × ℕ :=
  let (m', succ, skip) := bulkLoop m rows 0 0
  (if 0 < succ then m'.save else m', succ, skip)

/-- The scan of `update_expense`: replace the first record whose id matches,
`none` when no record matches. -/
def replaceFirst (expense_id : ℤ) (newExp : Expense) :
    List Expense → Option (List Expense)
  | [] => none
  | e :: rest =>
    if e.id = expense_id then some (newExp :: rest)
    else (replaceFirst expense_id newExp rest).map (e :: ·)

/-- `SectionManager.update_expense`. -/
def SectionManager.update_expense (m : SectionManager) (expense_id : ℤ)
    (date : Date) (category description : String) (amount : ℚ) :
    SectionManager × Bool :=
  match replaceFirst expense_id
      ⟨expense_id, date, category, description, amount⟩ m.expenses with
  | some es =>
    (SectionManager.save
      { m with expenses := es, categories := insert category m.categories },
     true)
  | none => (m, false)

/-- `SectionManager.delete_expense`: keep the records whose id differs,
report (and save) when the length dropped. -/
def SectionManager.delete_expense (m : SectionManager) (expense_id : ℤ) :
    SectionManager × Bool :=
  let before := m.expenses.length
  let kept := m.expenses.filter (fun e => e.id ≠ expense_id)
  let m' : SectionManager := { m with expenses := kept }
  if kept.length < before then (m'.save, true) else (m', false)

/-- `SectionManager.filter_by_month`. -/
def SectionManager.filter_by_month (m : SectionManager) (year month : ℕ) :
    List Expense :=
  m.expenses.filter (fun e => e.date.year = year ∧ e.date.month = month)

/-- `SectionManager.get_all` (the Python `list(...)` copy is identity
here). -/
def SectionManager.get_all (m : SectionManager) : List Expense := m.expenses

/-- `SectionManager.get_categories`: the category set, sorted. -/
def SectionManager.get_categories (m : SectionManager) : List String :=
  m.categories.sort (· ≤ ·)

/-! ## `SectionManager.validate_expenses` -/

/-- The distinct error messages `validate_expenses` can emit for a row
(without their `"Row {i}: "` prefix). `invalidDate` is the
`except ValueError` branch (`"Invalid date format - ..."`), which catches
both an unparsable date and an unparsable amount string; `otherError` is the
generic `except Exception` branch. -/
inductive ErrKind where
  | invalidDate
  | amountNotPositive
  | emptyCategory
  | emptyDescription
  | otherError
  deriving DecidableEq, Repr

/-- The checks after a row's amount has been coerced: positivity, then
non-empty stripped category, then non-empty stripped description. -/
def afterAmount (r : RawRow) (a : ℚ) : Option ErrKind :=
  if a ≤ 0 then some .amountNotPositive
  else match r.category with
    | .num _ => some .otherError
    | .str c =>
      if strip c = "" then some .emptyCategory
      else match r.description with
        | .num _ => some .otherError
        | .str d => if strip d = "" then some .emptyDescription else none

/-- The `try` body of `validate_expenses` for one row: the first failing
check, or `none` when the row is valid. A non-string date raises
`TypeError` (`otherError`); an unparsable date string or amount string
raises `ValueError` (`invalidDate`); a non-string category/description
raises `AttributeError` (`otherError`). -/
def validateRow (r : RawRow) : Option ErrKind :=
  match r.date with
  | .num _ => some .otherError
  | .str s =>
    match Date.fromisoformat s with
    | none => some .invalidDate
    | some _ =>
      match pyFloat r.amount with
      | none => some .invalidDate
      | some a => afterAmount r a

/-- The `enumerate(expenses, 1)` loop of `validate_expenses`, carrying the
1-based row index. Errors are `(row number, message)` pairs. -/
def validateLoop (i : ℕ) : List RawRow → List RawRow × List (ℕ × ErrKind)
  | [] => ([], [])
  | r :: rest =>
    let (vs, es) := validateLoop (i + 1) rest
    match validateRow r with
    | none => (r :: vs, es)
    | some k => (vs, (i, k) :: es)

/-- `SectionManager.validate_expenses`. -/
def validate_expenses (rows : List RawRow) :
    List RawRow × List (ℕ × ErrKind) :=
  validateLoop 1 rows

/-! ## `SectionManager.parse_csv_file` -/

/-- One row of the import source as pandas presents it: an association list
from column name to cell string. -/
def CsvRow := List (String × String)

/-- The dict built for one source row: `date`/`category`/`description` from
the synonym chains with string defaults, `amount` coerced with `float` (the
`float` call may raise, escaping the whole parse). -/
def parseRow (row : CsvRow) : Option RawRow := do
  let a ← match ((row.lookup "cost").orElse
      (fun _ => (row.lookup "Cost").orElse (fun _ => row.lookup "amount"))) with
    | some s => parseFloat s
    | none => some 0
  pure { date := .str ((row.lookup "date").getD "")
         category := .str (((row.lookup "category").orElse
           (fun _ => row.lookup "Category")).getD "")
         description := .str (((row.lookup "item").orElse
           (fun _ => (row.lookup "Item").orElse
             (fun _ => row.lookup "description"))).getD "")
         amount := .num a }

/-- The `df.iterrows()` loop: any raised coercion error escapes the whole
function. -/
def parseRowsLoop : List CsvRow → Option (List RawRow)
  | [] => some []
  | r :: rest =>
    match parseRow r with
    | none => none
    | some d => (parseRowsLoop rest).map (d :: ·)

/-- `SectionManager.parse_csv_file`. The source is `none` when
`pd.read_csv` itself fails; a `none` result is the raised
`ValueError("CSV parsing error: ...")`. -/
def parse_csv_file (src : Option (List CsvRow)) : Option (List RawRow) :=
  match src with
  | none => none
  | some rows => parseRowsLoop rows

/-! ## Operation sequences over a `SectionManager` -/

/-- One mutating call on a `SectionManager`. -/
inductive Op where
  | add (date : Date) (category description : String) (amount : ℚ)
  | del (expense_id : ℤ)
  | upd (expense_id : ℤ) (date : Date) (category description : String)
      (amount : ℚ)
  | bulk (rows : List RawRow)

/-- Apply one operation, discarding its return value. -/
def step (m : SectionManager) : Op → SectionManager
  | .add d c s a => (m.add_expense d c s a).1
  | .del i => (m.delete_expense i).1
  | .upd i d c s a => (m.update_expense i d c s a).1
  | .bulk rows => (m.bulk_add_expenses rows).1

/-- Apply a sequence of operations in order. -/
def run (m : SectionManager) (ops : List Op) : SectionManager :=
  ops.foldl step m

/-- Operations that are a plain `add_expense` or `delete_expense` call. -/
def isAddDel : Op → Bool
  | .add _ _ _ _ => true
  | .del _ => true
  | _ => false

/-- Operations that are an `add_expense` call. -/
def isAdd : Op → Bool
  | .add _ _ _ _ => true
  | _ => false

/-- The ids handed out by the `add_expense` calls of a sequence, in call
order. -/
def assignedIds (m : SectionManager) : List Op → List ℤ
  | [] => []
  | op :: rest =>
    (match op with
     | .add _ _ _ _ => [m.next_id]
     | _ => []) ++ assignedIds (step m op) rest

/-- How many `delete_expense` calls of a sequence returned `true`. -/
def succDeletes (m : SectionManager) : List Op → ℕ
  | [] => 0
  | op :: rest =>
    (match op with
     | .del i => if (m.delete_expense i).2 then 1 else 0
     | _ => 0) + succDeletes (step m op) rest

/-- The id bookkeeping invariant of a `SectionManager`: every stored id is
below `next_id` and the stored ids are pairwise distinct. -/
def GoodIds (m : SectionManager) : Prop :=
  (∀ e ∈ m.expenses, e.id < m.next_id) ∧ (m.expenses.map (·.id)).Nodup

/-- The records `bulk_add_expenses` creates for the coercible rows, starting
from the id `n`. -/
def addedRecords (n : ℤ) : List RawRow → List Expense
  | [] => []
  | r :: rest =>
    match coerceRow r with
    | some (d, c, ds, a) => ⟨n, d, c, ds, a⟩ :: addedRecords (n + 1) rest
    | none => addedRecords n rest

/-! ## `Analyzer.monthly_summary` -/

/-- The dict `monthly_summary` returns. -/
structure Summary where
  total : ℚ
  avg_per_day : ℚ
  top_category : String
  top_category_amount : ℚ
  deriving DecidableEq, Repr

/-- Add an amount into a `defaultdict(float)` keyed by category, modelled as
an association list in first-insertion order. -/
def addToCategory : List (String × ℚ) → String → ℚ → List (String × ℚ)
  | [], c, a => [(c, a)]
  | (k, v) :: rest, c, a =>
    if k = c then (k, v + a) :: rest
    else (k, v) :: addToCategory rest c a

/-- The per-category totals of a record list, in first-occurrence order. -/
def byCategory (expenses : List Expense) : List (String × ℚ) :=
  expenses.foldl (fun l e => addToCategory l e.category e.amount) []

/-- The summed amount of one category over a record list ("the category's
summed amount" of the spec). -/
def catSum (es : List Expense) (c : String) : ℚ :=
  ((es.filter (fun e => e.category = c)).map (·.amount)).sum

/-- Python `max(items, key=lambda x: x[1])`: the first item whose value is
maximal (a later item replaces the champion only when strictly greater). -/
def maxBySnd (cur : String × ℚ) : List (String × ℚ) → String × ℚ
  | [] => cur
  | x :: rest => maxBySnd (if cur.2 < x.2 then x else cur) rest

/-- `Analyzer.monthly_summary`. `top_category or "N/A"` maps both `None`
(empty input) and an empty-string category to `"N/A"`. -/
def monthly_summary (expenses : List Expense) : Summary :=
  let total := (expenses.map (·.amount)).sum
  let by_category := byCategory expenses
  let days : ℕ :=
    let n := (expenses.map (·.date)).toFinset.card
    if n = 0 then 1 else n
  let avg_per_day := total / (days : ℚ)
  let (top_category, top_amount) :=
    match by_category with
    | [] => (none, (0 : ℚ))
    | x :: rest => let p := maxBySnd x rest; (some p.1, p.2)
  { total := total
    avg_per_day := avg_per_day
    top_category_amount := top_amount
    top_category :=
      match top_category with
      | none => "N/A"
      | some c => if c = "" then "N/A" else c }

/-! ## Lemmas: delete and update -/

lemma filter_ne_length_lt_iff (l : List Expense) (i : ℤ) :
    (l.filter (fun e => e.id ≠ i)).length < l.length ↔ ∃ e ∈ l, e.id = i := by
  induction l with
  | nil => simp
  | cons x xs ih =>
    by_cases h : x.id = i
    · rw [List.filter_cons_of_neg (by simp [h])]
      have := List.length_filter_le (fun e => decide (e.id ≠ i)) xs
      simp only [List.length_cons]
      constructor
      · intro _; exact ⟨x, by simp, h⟩
      · intro _; omega
    · rw [List.filter_cons_of_pos (by simp [h])]
      simp only [List.length_cons, Nat.add_lt_add_iff_right]
      rw [ih]
      constructor
      · rintro ⟨e, he, hei⟩; exact ⟨e, List.mem_cons_of_mem _ he, hei⟩
      · rintro ⟨e, he, hei⟩
        rcases List.mem_cons.mp he with rfl | he'
        · exact absurd hei h
        · exact ⟨e, he', hei⟩

lemma delete_expense_expenses (m : SectionManager) (i : ℤ) :
    ((m.delete_expense i).1).expenses = m.expenses.filter (fun e => e.id ≠ i) := by
  simp only [SectionManager.delete_expense]
  split <;> rfl

lemma delete_expense_snd (m : SectionManager) (i : ℤ) :
    (m.delete_expense i).2 = true ↔ ∃ e ∈ m.expenses, e.id = i := by
  simp only [SectionManager.delete_expense]
  split
  · next h => simpa using (filter_ne_length_lt_iff m.expenses i).mp h
  · next h =>
    simpa using (not_iff_not.mpr (filter_ne_length_lt_iff m.expenses i)).mp h

lemma replaceFirst_eq_none_iff (i : ℤ) (y : Expense) (l : List Expense) :
    replaceFirst i y l = none ↔ ∀ e ∈ l, e.id ≠ i := by
  induction l with
  | nil => simp [replaceFirst]
  | cons x xs ih =>
    by_cases h : x.id = i
    · simp [replaceFirst, h]
    · simp [replaceFirst, h, Option.map_eq_none', ih]

lemma replaceFirst_append (i : ℤ) (y : Expense) (pre : List Expense)
    (x : Expense) (post : List Expense) (hpre : ∀ e ∈ pre, e.id ≠ i)
    (hx : x.id = i) :
    replaceFirst i y (pre ++ x :: post) = some (pre ++ y :: post) := by
  induction pre with
  | nil => simp [replaceFirst, hx]
  | cons p ps ih =>
    have hp : p.id ≠ i := hpre p (by simp)
    simp only [List.cons_append, replaceFirst, if_neg hp, List.append_eq]
    rw [ih (fun e he => hpre e (by simp [he]))]
    rfl

/-! ## Lemmas: tolerant loading -/

lemma loadRows_eq_filterMap (rows : List (List String)) :
    loadRows rows = rows.filterMap
      (fun r => if r.length = 5 then Expense.from_row r else none) := by
  induction rows with
  | nil => rfl
  | cons r rest ih =>
    by_cases h : r.length = 5
    · unfold loadRows
      cases he : Expense.from_row r <;>
        simp [h, he, List.filterMap_cons, ih]
    · unfold loadRows
      simp [h, List.filterMap_cons, ih]

/-! ## Claim theorems -/

/-- C10: `delete_expense(id)` removes every record whose id equals the
argument (not only the first), preserves the relative order of the remaining
records, and returns `true` exactly when at least one record was removed —
deterministic even on a record list with duplicate ids. -/
theorem delete_expense_spec (m : SectionManager) (i : ℤ) :
    ((m.delete_expense i).1).expenses = m.expenses.filter (fun e => e.id ≠ i) ∧
    (∀ e ∈ ((m.delete_expense i).1).expenses, e.id ≠ i) ∧
    ((m.delete_expense i).1).expenses.Sublist m.expenses ∧
    ((m.delete_expense i).2 = true ↔ ∃ e ∈ m.expenses, e.id = i) := by
  refine ⟨delete_expense_expenses m i, ?_, ?_, delete_expense_snd m i⟩
  · intro e he
    rw [delete_expense_expenses] at he
    exact of_decide_eq_true (List.mem_filter.mp he).2
  · rw [delete_expense_expenses]
    exact List.filter_sublist m.expenses

/-- C5: `update_expense` replaces the first record whose id matches, in
place and preserving its position, and returns `true`; when no record
matches it changes nothing and returns `false`; and after a
`delete_expense(id)` a subsequent `update_expense(id, ...)` returns `false`
(no resurrection). -/
theorem update_expense_spec (m : SectionManager) (i : ℤ) (d : Date)
    (c s : String) (a : ℚ) :
    ((∀ e ∈ m.expenses, e.id ≠ i) → m.update_expense i d c s a = (m, false)) ∧
    (∀ pre x post, m.expenses = pre ++ x :: post → (∀ e ∈ pre, e.id ≠ i) →
      x.id = i →
      ((m.update_expense i d c s a).1).expenses =
        pre ++ (⟨i, d, c, s, a⟩ : Expense) :: post ∧
      (m.update_expense i d c s a).2 = true) ∧
    ((m.update_expense i d c s a).2 = true ↔ ∃ e ∈ m.expenses, e.id = i) ∧
    (((m.delete_expense i).1).update_expense i d c s a).2 = false := by
  refine ⟨?_, ?_, ?_, ?_⟩
  · intro h
    unfold SectionManager.update_expense
    rw [(replaceFirst_eq_none_iff i _ m.expenses).mpr h]
  · intro pre x post hsplit hpre hx
    unfold SectionManager.update_expense
    rw [hsplit, replaceFirst_append i _ pre x post hpre hx]
    exact ⟨rfl, rfl⟩
  · unfold SectionManager.update_expense
    rcases he : replaceFirst i ⟨i, d, c, s, a⟩ m.expenses with - | es
    · simp only [Option.map]
      have := (replaceFirst_eq_none_iff i ⟨i, d, c, s, a⟩ m.expenses).mp he
      constructor
      · intro h; cases h
      · rintro ⟨e, hmem, hid⟩; exact absurd hid (this e hmem)
    · have : ¬ (∀ e ∈ m.expenses, e.id ≠ i) := by
        intro h
        rw [(replaceFirst_eq_none_iff i _ m.expenses).mpr h] at he
        cases he
      push_neg at this
      simpa using this
  · unfold SectionManager.update_expense
    have hnone : replaceFirst i (⟨i, d, c, s, a⟩ : Expense)
        ((m.delete_expense i).1).expenses = none := by
      rw [replaceFirst_eq_none_iff]
      exact (delete_expense_spec m i).2.1
    rw [hnone]

/-- Witness for C5 at a concrete state: one record with id 1; deleting id 1
then updating id 1 reports `false`, and updating a fresh manager at a
missing id leaves it unchanged. -/
theorem update_expense_spec_witness :
    ((((mkSectionManager [⟨1, ⟨2024, 1, 5⟩, "Food", "x", 5⟩]).delete_expense
        1).1).update_expense 1 ⟨2024, 1, 6⟩ "Rent" "y" 7).2 = false ∧
    ((mkSectionManager [⟨1, ⟨2024, 1, 5⟩, "Food", "x", 5⟩]).update_expense 2
        ⟨2024, 1, 6⟩ "Rent" "y" 7) =
      (mkSectionManager [⟨1, ⟨2024, 1, 5⟩, "Food", "x", 5⟩], false) :=
  ⟨(update_expense_spec (mkSectionManager [⟨1, ⟨2024, 1, 5⟩, "Food", "x", 5⟩])
      1 ⟨2024, 1, 6⟩ "Rent" "y" 7).2.2.2,
   (update_expense_spec (mkSectionManager [⟨1, ⟨2024, 1, 5⟩, "Food", "x", 5⟩])
      2 ⟨2024, 1, 6⟩ "Rent" "y" 7).1 (by decide)⟩

/-- C7: `load_all` never fails the whole load: an absent file yields `[]`,
and for any file content exactly the well-formed rows (length 5 and parsable
id/date/amount) are returned in file order, the malformed ones silently
skipped. -/
theorem load_all_tolerant (rows : List (List String)) :
    load_all none = [] ∧
    load_all (some rows) = (rows.drop 1).filterMap
      (fun r => if r.length = 5 then Expense.from_row r else none) := by
  exact ⟨rfl, loadRows_eq_filterMap (rows.drop 1)⟩

/-! ## Lemmas: validation -/

lemma validateLoop_fst (rows : List RawRow) : ∀ i : ℕ,
    (validateLoop i rows).1 = rows.filter (fun r => (validateRow r).isNone) := by
  induction rows with
  | nil => intro i; rfl
  | cons r rest ih =>
    intro i
    cases hv : validateRow r <;>
      simp [validateLoop, hv, List.filter_cons, ih (i + 1)]

lemma validateLoop_snd (rows : List RawRow) : ∀ i : ℕ,
    (validateLoop i rows).2 = (rows.enumFrom i).filterMap
      (fun p => (validateRow p.2).map (fun k => (p.1, k))) := by
  induction rows with
  | nil => intro i; rfl
  | cons r rest ih =>
    intro i
    cases hv : validateRow r <;>
      simp [validateLoop, hv, List.enumFrom, List.filterMap_cons, ih (i + 1)]

/-- C3: `validate_expenses` keeps, in their original order, exactly the rows
passing all four checks (ISO date, numeric strictly positive amount,
non-empty stripped category, non-empty stripped description); each failing
row contributes exactly one error tagged with its 1-based row number — an
invalid-date message when the date string does not parse — and validation
continues past failing rows. -/
theorem validate_expenses_spec (rows : List RawRow) :
    (validate_expenses rows).1 =
      rows.filter (fun r => (validateRow r).isNone) ∧
    (validate_expenses rows).2 = (rows.enumFrom 1).filterMap
      (fun p => (validateRow p.2).map (fun k => (p.1, k))) ∧
    (∀ s cat ds amt, Date.fromisoformat s = none →
      validateRow ⟨.str s, cat, ds, amt⟩ = some .invalidDate) ∧
    (∀ r : RawRow, validateRow r = none ↔
      ((pyFromIso r.date).isSome ∧
       (∃ a, pyFloat r.amount = some a ∧ 0 < a) ∧
       (∃ c, pyStrip r.category = some c ∧ c ≠ "") ∧
       (∃ ds, pyStrip r.description = some ds ∧ ds ≠ ""))) := by
  refine ⟨validateLoop_fst rows 1, validateLoop_snd rows 1, ?_, ?_⟩
  · intro s cat ds amt hs
    simp [validateRow, hs]
  · intro r
    rcases r with ⟨rd, rc, rds, ra⟩
    cases rd with
    | num q => simp [validateRow, pyFromIso]
    | str s =>
      cases hd : Date.fromisoformat s with
      | none => simp [validateRow, pyFromIso, hd]
      | some d =>
        cases ha : pyFloat ra with
        | none => simp [validateRow, pyFromIso, hd, ha]
        | some a =>
          simp only [validateRow, hd, pyFromIso, Option.isSome_some,
            true_and, ha, Option.some.injEq]
          by_cases hpos : a ≤ 0
          · simp only [afterAmount, if_pos hpos]
            constructor
            · intro h; cases h
            · rintro ⟨⟨a', ha', hpos'⟩, -⟩
              cases ha'; exact absurd hpos' (not_lt.mpr hpos)
          · simp only [afterAmount, if_neg hpos]
            have hex : ∃ a', a = a' ∧ 0 < a' := ⟨a, rfl, not_le.mp hpos⟩
            cases rc with
            | num q => simp [pyStrip, hex]
            | str c =>
              by_cases hc : strip c = ""
              · simp [pyStrip, hc, hex]
              · simp only [if_neg hc]
                cases rds with
                | num q => simp [pyStrip, hex, hc]
                | str ds =>
                  by_cases hds : strip ds = ""
                  · simp [pyStrip, hds, hex, hc]
                  · simp [pyStrip, hds, hex, hc]

/-- Witness for C3 at the spec's example row `{date:"2024-13-40",
category:"Food", description:"x", amount:"10"}`: exactly one error,
referencing row 1 with the invalid-date reason, and the row excluded from
the valid list. -/
theorem validate_expenses_spec_witness :
    validate_expenses [⟨.str "2024-13-40", .str "Food", .str "x", .str "10"⟩] =
      ([], [(1, ErrKind.invalidDate)]) := by
  have h := validate_expenses_spec
    [⟨.str "2024-13-40", .str "Food", .str "x", .str "10"⟩]
  rw [Prod.ext_iff]
  exact ⟨h.1.trans (by decide), (h.2.1).trans (by decide)⟩

/-! ## Lemmas: bulk add -/

lemma addedRecords_length (rows : List RawRow) : ∀ n : ℤ,
    (addedRecords n rows).length =
      rows.countP (fun r => (coerceRow r).isSome) := by
  induction rows with
  | nil => intro n; rfl
  | cons r rest ih =>
    intro n
    cases hc : coerceRow r with
    | none => simp [addedRecords, hc, List.countP_cons, ih n]
    | some t =>
      obtain ⟨d, c, ds, a⟩ := t
      simp [addedRecords, hc, List.countP_cons, ih (n + 1)]

lemma bulkLoop_spec (rows : List RawRow) : ∀ (m : SectionManager) (s k : ℕ),
    ((bulkLoop m rows s k).1.expenses =
        m.expenses ++ addedRecords m.next_id rows) ∧
    ((bulkLoop m rows s k).1.next_id =
        m.next_id + rows.countP (fun r => (coerceRow r).isSome)) ∧
    ((bulkLoop m rows s k).1.saveLog = m.saveLog) ∧
    ((bulkLoop m rows s k).2.1 =
        s + rows.countP (fun r => (coerceRow r).isSome)) ∧
    ((bulkLoop m rows s k).2.2 =
        k + rows.countP (fun r => (coerceRow r).isNone)) := by
  induction rows with
  | nil => intro m s k; simp [bulkLoop, addedRecords]
  | cons r rest ih =>
    intro m s k
    cases hc : coerceRow r with
    | none =>
      have h := ih m s (k + 1)
      simp only [bulkLoop, hc]
      refine ⟨h.1.trans (by simp [addedRecords, hc]), ?_, h.2.2.1, ?_, ?_⟩
      · rw [h.2.1]; simp [List.countP_cons, hc]
      · rw [h.2.2.2.1]; simp [List.countP_cons, hc]
      · rw [h.2.2.2.2]; simp [List.countP_cons, hc]; omega
    | some t =>
      obtain ⟨d, c, ds, a⟩ := t
      set m' : SectionManager :=
        { m with expenses := m.expenses ++ [⟨m.next_id, d, c, ds, a⟩]
                 categories := insert c m.categories
                 next_id := m.next_id + 1 } with hm'
      have h := ih m' (s + 1) k
      simp only [bulkLoop, hc]
      refine ⟨?_, ?_, ?_, ?_, ?_⟩
      · rw [h.1, hm']; simp [addedRecords, hc]
      · rw [h.2.1, hm']; simp [List.countP_cons, hc]; ring
      · rw [h.2.2.1]
      · rw [h.2.2.2.1]; simp [List.countP_cons, hc]; omega
      · rw [h.2.2.2.2]; simp [List.countP_cons, hc]

/-- C2 (amended): `bulk_add_expenses` processes each row independently — a
row is added exactly when its date string parses, its category and
description are strings (they may strip to empty: no emptiness check is
performed on this path) and its amount coerces to a number; a failing row is
counted as skipped and processing continues with no rollback; the returned
pair is (added, skipped) with added + skipped = the input length; the added
records are appended in order with consecutive ids starting at `next_id`;
and the storage save runs exactly once at the end when at least one row was
added, never otherwise. -/
theorem bulk_add_expenses_spec (m : SectionManager) (rows : List RawRow) :
    ((m.bulk_add_expenses rows).2.1 =
        rows.countP (fun r => (coerceRow r).isSome)) ∧
    ((m.bulk_add_expenses rows).2.2 =
        rows.countP (fun r => (coerceRow r).isNone)) ∧
    ((m.bulk_add_expenses rows).2.1 + (m.bulk_add_expenses rows).2.2 =
        rows.length) ∧
    ((m.bulk_add_expenses rows).1.expenses =
        m.expenses ++ addedRecords m.next_id rows) ∧
    ((m.bulk_add_expenses rows).1.next_id =
        m.next_id + (m.bulk_add_expenses rows).2.1) ∧
    ((m.bulk_add_expenses rows).1.saveLog = m.saveLog ++
        (if 0 < (m.bulk_add_expenses rows).2.1 then
          [(m.bulk_add_expenses rows).1.expenses] else [])) := by
  have h := bulkLoop_spec rows m 0 0
  have hcount : ∀ l : List RawRow,
      l.countP (fun r => (coerceRow r).isSome) +
        l.countP (fun r => (coerceRow r).isNone) = l.length := by
    intro l
    induction l with
    | nil => rfl
    | cons x xs ihx =>
      cases hx : coerceRow x <;> simp [List.countP_cons, hx] <;> omega
  simp only [SectionManager.bulk_add_expenses]
  rcases hb : bulkLoop m rows 0 0 with ⟨mb, sb, kb⟩
  rw [hb] at h
  simp only at h
  obtain ⟨hexp, hnext, hlog, hs, hk⟩ := h
  by_cases hpos : 0 < sb
  · simp only [if_pos hpos, SectionManager.save]
    exact ⟨by omega, by omega, by rw [hs, hk]; simpa using hcount rows,
      hexp, by omega, by rw [hlog, hexp]⟩
  · simp only [if_neg hpos]
    refine ⟨by omega, by omega, by rw [hs, hk]; simpa using hcount rows,
      hexp, by omega, ?_⟩
    rw [hlog]
    simp

/-- Counterexample for C2 as stated: a row whose category and description
are empty strings is nevertheless added (return value `(1, 0)`), because
`bulk_add_expenses` only strips these fields and never checks them for
emptiness. -/
theorem bulk_add_expenses_empty_fields_added :
    (((mkSectionManager []).bulk_add_expenses
        [⟨.str "2024-01-05", .str "", .str "", .str "5"⟩]).2 = (1, 0)) ∧
    pyStrip (PyVal.str "") = some "" := by decide

/-! ## Lemmas: CSV import parsing -/

lemma parseRowsLoop_eq_none_iff (rows : List CsvRow) :
    parseRowsLoop rows = none ↔ ∃ r ∈ rows, parseRow r = none := by
  induction rows with
  | nil => simp [parseRowsLoop]
  | cons r rest ih =>
    cases hr : parseRow r with
    | none => simp [parseRowsLoop, hr]
    | some d =>
      simp only [parseRowsLoop, hr, Option.map_eq_none', ih]
      constructor
      · rintro ⟨x, hx, hnone⟩; exact ⟨x, List.mem_cons_of_mem _ hx, hnone⟩
      · rintro ⟨x, hx, hnone⟩
        rcases List.mem_cons.mp hx with rfl | hx'
        · rw [hr] at hnone; cases hnone
        · exact ⟨x, hx', hnone⟩

lemma parseRowsLoop_eq_mapM (rows : List CsvRow) :
    parseRowsLoop rows = rows.mapM parseRow := by
  induction rows with
  | nil => rfl
  | cons r rest ih =>
    cases hr : parseRow r with
    | none => rw [List.mapM_cons, hr]; simp [parseRowsLoop, hr]
    | some d =>
      rw [List.mapM_cons, hr, ← ih]
      simp only [parseRowsLoop, hr]
      cases parseRowsLoop rest <;> rfl

/-- C4 (amended): `parse_csv_file` fails for an unreadable source, but also
for a per-row problem: any row whose resolved amount cell does not coerce to
a number makes the whole parse raise (contrary to the claim that per-row
problems are never raised here). Otherwise each row parses with the header
synonym chains `cost`/`Cost`/`amount` and `item`/`Item`/`description`, a
missing amount column defaults to zero and missing category/description
default to the empty string, and a source using `Cost` and `Item` parses
identically to one using `amount` and `description`. -/
theorem parse_csv_file_spec (rows : List CsvRow) :
    parse_csv_file none = none ∧
    parse_csv_file (some rows) = rows.mapM parseRow ∧
    (parse_csv_file (some rows) = none ↔ ∃ r ∈ rows, parseRow r = none) ∧
    (∀ row : CsvRow, row.lookup "cost" = none → row.lookup "Cost" = none →
      row.lookup "amount" = none → row.lookup "category" = none →
      row.lookup "Category" = none → row.lookup "item" = none →
      row.lookup "Item" = none → row.lookup "description" = none →
      parseRow row =
        some ⟨.str ((row.lookup "date").getD ""), .str "", .str "", .num 0⟩) ∧
    (∀ d c ds a : String,
      parseRow [("date", d), ("category", c), ("Item", ds), ("Cost", a)] =
        parseRow [("date", d), ("category", c), ("description", ds),
          ("amount", a)]) := by
  refine ⟨rfl, parseRowsLoop_eq_mapM rows, parseRowsLoop_eq_none_iff rows,
    ?_, ?_⟩
  · intro row h1 h2 h3 h4 h5 h6 h7 h8
    simp [parseRow, h1, h2, h3, h4, h5, h6, h7, h8, Option.orElse]
  · intro d c ds a
    rfl

/-- Witness for C4: a row with only a `date` column parses with amount
defaulting to zero and category/description defaulting to empty strings. -/
theorem parse_csv_file_spec_witness :
    parseRow [("date", "2024-01-05")] =
      some ⟨.str "2024-01-05", .str "", .str "", .num 0⟩ :=
  (parse_csv_file_spec []).2.2.2.1 [("date", "2024-01-05")]
    rfl rfl rfl rfl rfl rfl rfl rfl

/-- Counterexample for C4 as stated: a structurally well-formed source whose
single row has the unparsable amount cell `"abc"` makes `parse_csv_file`
raise, while the same file with a numeric cell parses — so a per-row
problem does escape as a parse-level failure. -/
theorem parse_csv_file_row_problem_raises :
    parse_csv_file (some [[("date", "2024-01-05"), ("category", "Food"),
        ("item", "lunch"), ("cost", "abc")]]) = none ∧
    (parse_csv_file (some [[("date", "2024-01-05"), ("category", "Food"),
        ("item", "lunch"), ("cost", "12.5")]])).isSome = true := by
  constructor <;> decide

/-! ## Lemmas: category set -/

lemma bulkLoop_categories_mono (rows : List RawRow) :
    ∀ (m : SectionManager) (s k : ℕ),
    m.categories ⊆ (bulkLoop m rows s k).1.categories := by
  induction rows with
  | nil => intro m s k; exact Finset.Subset.refl _
  | cons r rest ih =>
    intro m s k
    cases hc : coerceRow r with
    | none => simpa [bulkLoop, hc] using ih m s (k + 1)
    | some t =>
      obtain ⟨d, c, ds, a⟩ := t
      simp only [bulkLoop, hc]
      have h := ih { m with
        expenses := m.expenses ++ [⟨m.next_id, d, c, ds, a⟩]
        categories := insert c m.categories
        next_id := m.next_id + 1 } (s + 1) k
      exact (Finset.subset_insert c m.categories).trans h

lemma delete_categories_eq (m : SectionManager) (i : ℤ) :
    ((m.delete_expense i).1).categories = m.categories := by
  simp only [SectionManager.delete_expense]
  split <;> rfl

lemma update_categories_mono (m : SectionManager) (i : ℤ) (d : Date)
    (c s : String) (a : ℚ) :
    m.categories ⊆ ((m.update_expense i d c s a).1).categories := by
  simp only [SectionManager.update_expense]
  rcases replaceFirst i ⟨i, d, c, s, a⟩ m.expenses with - | es
  · exact Finset.Subset.refl _
  · exact Finset.subset_insert c m.categories

lemma step_categories_mono (m : SectionManager) (op : Op) :
    m.categories ⊆ (step m op).categories := by
  cases op with
  | add d c s a => exact Finset.subset_insert c m.categories
  | del i => rw [step, delete_categories_eq]
  | upd i d c s a => exact update_categories_mono m i d c s a
  | bulk rows =>
    simp only [step, SectionManager.bulk_add_expenses]
    split
    · exact bulkLoop_categories_mono rows m 0 0
    · exact bulkLoop_categories_mono rows m 0 0

lemma run_categories_mono (ops : List Op) : ∀ m : SectionManager,
    m.categories ⊆ (run m ops).categories := by
  induction ops with
  | nil => intro m; exact Finset.Subset.refl _
  | cons op rest ih =>
    intro m
    exact (step_categories_mono m op).trans (ih (step m op))

lemma bulkLoop_mem_categories (rows : List RawRow) :
    ∀ (m : SectionManager) (s k : ℕ) (r : RawRow), r ∈ rows →
    ∀ d c ds a, coerceRow r = some (d, c, ds, a) →
    c ∈ (bulkLoop m rows s k).1.categories := by
  induction rows with
  | nil => intro m s k r hr; cases hr
  | cons x rest ih =>
    intro m s k r hr d c ds a hc
    rcases List.mem_cons.mp hr with rfl | hr'
    · simp only [bulkLoop, hc]
      exact bulkLoop_categories_mono rest _ (s + 1) k
        (Finset.mem_insert_self c m.categories)
    · cases hx : coerceRow x with
      | none => simpa [bulkLoop, hx] using ih m s (k + 1) r hr' d c ds a hc
      | some t =>
        obtain ⟨d', c', ds', a'⟩ := t
        simp only [bulkLoop, hx]
        exact ih _ (s + 1) k r hr' d c ds a hc

/-- C9 (implicit): the known-category set only grows: `add_expense`,
`bulk_add_expenses` (for each coerced row) and also `update_expense` insert
the record's category, no operation — `delete_expense` included — removes
one; after a successful update with category `c`, `c` appears in
`get_categories()`, and `get_categories()` is always sorted and contains
every category it contained before any sequence of operations. -/
theorem categories_grow_monotone (m : SectionManager) (ops : List Op)
    (i : ℤ) (d : Date) (c s : String) (a : ℚ) (rows : List RawRow) :
    m.categories ⊆ (run m ops).categories ∧
    c ∈ ((m.add_expense d c s a).1).categories ∧
    (∀ r ∈ rows, ∀ d' c' ds' a', coerceRow r = some (d', c', ds', a') →
      c' ∈ ((m.bulk_add_expenses rows).1).categories) ∧
    ((m.update_expense i d c s a).2 = true →
      c ∈ ((m.update_expense i d c s a).1).get_categories) ∧
    ((m.delete_expense i).1).categories = m.categories ∧
    (m.get_categories).Sorted (· ≤ ·) ∧
    (∀ x ∈ m.get_categories, x ∈ (run m ops).get_categories) := by
  refine ⟨run_categories_mono ops m, Finset.mem_insert_self c m.categories,
    ?_, ?_, delete_categories_eq m i, Finset.sort_sorted _ _, ?_⟩
  · intro r hr d' c' ds' a' hc
    simp only [SectionManager.bulk_add_expenses]
    split
    · exact bulkLoop_mem_categories rows m 0 0 r hr d' c' ds' a' hc
    · exact bulkLoop_mem_categories rows m 0 0 r hr d' c' ds' a' hc
  · intro hb
    simp only [SectionManager.update_expense] at hb ⊢
    cases hrep : replaceFirst i ⟨i, d, c, s, a⟩ m.expenses with
    | none => rw [hrep] at hb; simp at hb
    | some es =>
      simp only [SectionManager.get_categories, Finset.mem_sort,
        SectionManager.save]
      exact Finset.mem_insert_self c _
  · intro x hx
    simp only [SectionManager.get_categories, Finset.mem_sort] at hx ⊢
    exact run_categories_mono ops m hx

/-- Witness for C9 at concrete inputs: a successful update with category
"Gifts" makes "Gifts" appear in `get_categories()`, and a bulk-added row's
category lands in the category set. -/
theorem categories_grow_monotone_witness :
    "Gifts" ∈ ((mkSectionManager [⟨1, ⟨2024, 1, 5⟩, "Food", "x", 5⟩]).update_expense
        1 ⟨2024, 1, 6⟩ "Gifts" "y" 7).1.get_categories ∧
    "Rent" ∈ ((mkSectionManager [⟨1, ⟨2024, 1, 5⟩, "Food", "x", 5⟩]).bulk_add_expenses
        [⟨.str "2024-01-06", .str "Rent", .str "z", .str "4"⟩]).1.categories :=
  ⟨(categories_grow_monotone (mkSectionManager [⟨1, ⟨2024, 1, 5⟩, "Food", "x", 5⟩])
      [] 1 ⟨2024, 1, 6⟩ "Gifts" "y" 7 []).2.2.2.1 (by decide),
   (categories_grow_monotone (mkSectionManager [⟨1, ⟨2024, 1, 5⟩, "Food", "x", 5⟩])
      [] 1 ⟨2024, 1, 6⟩ "Gifts" "y" 7
      [⟨.str "2024-01-06", .str "Rent", .str "z", .str "4"⟩]).2.2.1
      ⟨.str "2024-01-06", .str "Rent", .str "z", .str "4"⟩ (by decide)
      ⟨2024, 1, 6⟩ "Rent" "z" 4 (by decide)⟩

/-! ## Lemmas: id assignment -/

lemma le_foldl_max (l : List ℤ) (x : ℤ) : x ≤ l.foldl max x := by
  induction l generalizing x with
  | nil => exact le_refl x
  | cons y ys ih => exact le_trans (le_max_left x y) (ih (max x y))

lemma mem_le_foldl_max (l : List ℤ) (x : ℤ) : ∀ y ∈ l, y ≤ l.foldl max x := by
  induction l generalizing x with
  | nil => intro y hy; cases hy
  | cons z zs ih =>
    intro y hy
    rcases List.mem_cons.mp hy with rfl | hy'
    · exact le_trans (le_max_right x y) (le_foldl_max zs (max x y))
    · exact ih (max x z) y hy'

lemma listMaxD0_ge (l : List ℤ) : ∀ y ∈ l, y ≤ listMaxD0 l := by
  cases l with
  | nil => intro y hy; cases hy
  | cons x xs =>
    intro y hy
    rcases List.mem_cons.mp hy with rfl | hy'
    · exact le_foldl_max xs y
    · exact mem_le_foldl_max xs x y hy'

lemma mk_goodIds (loaded : List Expense)
    (hnd : (loaded.map (·.id)).Nodup) : GoodIds (mkSectionManager loaded) := by
  refine ⟨?_, hnd⟩
  intro e he
  have : e.id ≤ listMaxD0 (loaded.map (·.id)) :=
    listMaxD0_ge _ e.id (List.mem_map_of_mem _ he)
  show e.id < compute_next_id loaded
  unfold compute_next_id
  omega

lemma add_expense_fields (m : SectionManager) (d : Date) (c s : String)
    (a : ℚ) :
    ((m.add_expense d c s a).1).expenses =
      m.expenses ++ [⟨m.next_id, d, c, s, a⟩] ∧
    ((m.add_expense d c s a).1).next_id = m.next_id + 1 := ⟨rfl, rfl⟩

lemma delete_next_id (m : SectionManager) (i : ℤ) :
    ((m.delete_expense i).1).next_id = m.next_id := by
  simp only [SectionManager.delete_expense]
  split <;> rfl

lemma goodIds_add (m : SectionManager) (d : Date) (c s : String) (a : ℚ)
    (h : GoodIds m) : GoodIds ((m.add_expense d c s a).1) := by
  obtain ⟨hb, hnd⟩ := h
  constructor
  · intro e he
    rw [(add_expense_fields m d c s a).1] at he
    rw [(add_expense_fields m d c s a).2]
    rcases List.mem_append.mp he with he' | he'
    · exact lt_trans (hb e he') (by omega)
    · rcases List.mem_singleton.mp he' with rfl
      exact lt_add_one m.next_id
  · rw [(add_expense_fields m d c s a).1]
    rw [List.map_append, List.map_singleton]
    rw [List.nodup_append]
    refine ⟨hnd, List.nodup_singleton _, ?_⟩
    intro j hj hj'
    rcases List.mem_singleton.mp hj' with rfl
    rcases List.mem_map.mp hj with ⟨e, he, hei⟩
    exact absurd hei (ne_of_lt (hb e he))

lemma goodIds_del (m : SectionManager) (i : ℤ) (h : GoodIds m) :
    GoodIds ((m.delete_expense i).1) := by
  obtain ⟨hb, hnd⟩ := h
  constructor
  · intro e he
    rw [delete_expense_expenses] at he
    rw [delete_next_id]
    exact hb e (List.mem_of_mem_filter he)
  · rw [delete_expense_expenses]
    exact ((List.filter_sublist m.expenses).map (·.id)).nodup hnd

lemma step_next_id_mono (m : SectionManager) (op : Op)
    (hop : isAddDel op = true) : m.next_id ≤ (step m op).next_id := by
  cases op with
  | add d c s a => rw [step, (add_expense_fields m d c s a).2]; omega
  | del i => rw [step, delete_next_id]
  | upd i d c s a => cases hop
  | bulk rows => cases hop

lemma goodIds_step (m : SectionManager) (op : Op)
    (hop : isAddDel op = true) (h : GoodIds m) : GoodIds (step m op) := by
  cases op with
  | add d c s a => exact goodIds_add m d c s a h
  | del i => exact goodIds_del m i h
  | upd i d c s a => cases hop
  | bulk rows => cases hop

lemma goodIds_run (ops : List Op) : ∀ m : SectionManager,
    (∀ op ∈ ops, isAddDel op = true) → GoodIds m → GoodIds (run m ops) := by
  induction ops with
  | nil => intro m _ h; exact h
  | cons op rest ih =>
    intro m hops h
    exact ih (step m op) (fun o ho => hops o (List.mem_cons_of_mem _ ho))
      (goodIds_step m op (hops op (List.mem_cons_self _ _)) h)

lemma assignedIds_ge (ops : List Op) : ∀ m : SectionManager,
    (∀ op ∈ ops, isAddDel op = true) →
    ∀ j ∈ assignedIds m ops, m.next_id ≤ j := by
  induction ops with
  | nil => intro m _ j hj; cases hj
  | cons op rest ih =>
    intro m hops j hj
    have hop := hops op (List.mem_cons_self _ _)
    have hrest := fun o ho => hops o (List.mem_cons_of_mem _ ho)
    have hmono := step_next_id_mono m op hop
    cases op with
    | add d c s a =>
      rcases List.mem_append.mp hj with hj' | hj'
      · rcases List.mem_singleton.mp hj' with rfl
        exact le_refl _
      · exact le_trans hmono (ih (step m (.add d c s a)) hrest j hj')
    | del i =>
      rcases List.mem_append.mp hj with hj' | hj'
      · cases hj'
      · exact le_trans hmono (ih (step m (.del i)) hrest j hj')
    | upd i d c s a => cases hop
    | bulk rows => cases hop

lemma assignedIds_pairwise (ops : List Op) : ∀ m : SectionManager,
    (∀ op ∈ ops, isAddDel op = true) →
    (assignedIds m ops).Pairwise (· < ·) := by
  induction ops with
  | nil => intro m _; exact List.Pairwise.nil
  | cons op rest ih =>
    intro m hops
    have hop := hops op (List.mem_cons_self _ _)
    have hrest := fun o ho => hops o (List.mem_cons_of_mem _ ho)
    cases op with
    | add d c s a =>
      show ((m.next_id :: assignedIds (step m (.add d c s a)) rest)).Pairwise _
      rw [List.pairwise_cons]
      refine ⟨?_, ih _ hrest⟩
      intro j hj
      have := assignedIds_ge rest (step m (.add d c s a)) hrest j hj
      rw [step, (add_expense_fields m d c s a).2] at this
      omega
    | del i =>
      show (assignedIds (step m (.del i)) rest).Pairwise _
      exact ih _ hrest
    | upd i d c s a => cases hop
    | bulk rows => cases hop

lemma filter_length_nodup (l : List Expense) (i : ℤ)
    (h : (l.map (·.id)).Nodup) :
    l.length ≤ (l.filter (fun e => e.id ≠ i)).length + 1 := by
  induction l with
  | nil => simp
  | cons x xs ih =>
    rw [List.map_cons, List.nodup_cons] at h
    obtain ⟨hx, hxs⟩ := h
    by_cases hxi : x.id = i
    · rw [List.filter_cons_of_neg (by simp [hxi])]
      have hfil : xs.filter (fun e => e.id ≠ i) = xs := by
        rw [List.filter_eq_self]
        intro e he
        simp only [ne_eq, decide_not, Bool.not_eq_true', decide_eq_false_iff_not]
        intro hei
        apply hx
        rw [hxi, ← hei]
        exact List.mem_map_of_mem (fun a => a.id) he
      rw [hfil]
      simp
    · rw [List.filter_cons_of_pos (by simp [hxi])]
      simp only [List.length_cons]
      have hih := ih hxs
      omega

lemma delete_length (m : SectionManager) (i : ℤ) (h : GoodIds m) :
    ((m.delete_expense i).1).expenses.length +
      (if (m.delete_expense i).2 = true then 1 else 0) =
    m.expenses.length := by
  have hle := List.length_filter_le (fun e => decide (e.id ≠ i)) m.expenses
  have hge := filter_length_nodup m.expenses i h.2
  rw [delete_expense_expenses]
  by_cases hb : (m.delete_expense i).2 = true
  · rw [if_pos hb]
    have := (delete_expense_snd m i).mp hb
    have hlt := (filter_ne_length_lt_iff m.expenses i).mpr this
    omega
  · rw [if_neg hb]
    have : ¬ (m.expenses.filter (fun e => e.id ≠ i)).length <
        m.expenses.length := by
      intro hlt
      exact hb ((delete_expense_snd m i).mpr
        ((filter_ne_length_lt_iff m.expenses i).mp hlt))
    omega

lemma run_length (ops : List Op) : ∀ m : SectionManager,
    (∀ op ∈ ops, isAddDel op = true) → GoodIds m →
    (run m ops).expenses.length + succDeletes m ops =
      m.expenses.length + ops.countP isAdd := by
  induction ops with
  | nil => intro m _ _; simp [run, succDeletes]
  | cons op rest ih =>
    intro m hops h
    have hop := hops op (List.mem_cons_self _ _)
    have hrest := fun o ho => hops o (List.mem_cons_of_mem _ ho)
    have hstep := goodIds_step m op hop h
    have hih := ih (step m op) hrest hstep
    cases op with
    | add d c s a =>
      have hcount : (Op.add d c s a :: rest).countP isAdd =
          rest.countP isAdd + 1 := by
        simp [List.countP_cons, isAdd]
      have hlen : (step m (.add d c s a)).expenses.length =
          m.expenses.length + 1 := by
        rw [step, (add_expense_fields m d c s a).1]
        simp
      show (run (step m (.add d c s a)) rest).expenses.length +
        (0 + succDeletes (step m (.add d c s a)) rest) =
        m.expenses.length + (Op.add d c s a :: rest).countP isAdd
      rw [hcount]
      omega
    | del i =>
      have hcount : (Op.del i :: rest).countP isAdd = rest.countP isAdd := by
        simp [List.countP_cons, isAdd]
      have hdel := delete_length m i h
      have hstep_exp : (step m (.del i)).expenses.length +
          (if (m.delete_expense i).2 = true then 1 else 0) =
          m.expenses.length := hdel
      show (run (step m (.del i)) rest).expenses.length +
        ((if (m.delete_expense i).2 = true then 1 else 0) +
          succDeletes (step m (.del i)) rest) =
        m.expenses.length + (Op.del i :: rest).countP isAdd
      rw [hcount]
      omega
    | upd i d c s a => cases hop
    | bulk rows => cases hop

/-- C1: starting from a freshly constructed `SectionManager`, over any
sequence of `add_expense` and `delete_expense` calls the stored ids stay
pairwise distinct, the ids assigned by `add_expense` are strictly
increasing and strictly above every loaded id (so an id is never reused
after a delete), the constructor computes `next_id` as max of existing ids
(default 0) plus 1, and the length of `get_all()` plus the number of
successful deletes equals the number of loaded records plus the number of
adds. -/
theorem ids_spec (loaded : List Expense) (ops : List Op)
    (hnd : (loaded.map (·.id)).Nodup)
    (hops : ∀ op ∈ ops, isAddDel op = true) :
    (mkSectionManager loaded).next_id =
      listMaxD0 (loaded.map (·.id)) + 1 ∧
    ((run (mkSectionManager loaded) ops).expenses.map (·.id)).Nodup ∧
    (assignedIds (mkSectionManager loaded) ops).Pairwise (· < ·) ∧
    (∀ j ∈ assignedIds (mkSectionManager loaded) ops,
      ∀ e ∈ loaded, e.id < j) ∧
    (run (mkSectionManager loaded) ops).get_all.length +
        succDeletes (mkSectionManager loaded) ops =
      loaded.length + ops.countP isAdd := by
  have hgood := mk_goodIds loaded hnd
  refine ⟨rfl, (goodIds_run ops _ hops hgood).2,
    assignedIds_pairwise ops _ hops, ?_, run_length ops _ hops hgood⟩
  intro j hj e he
  have hge := assignedIds_ge ops _ hops j hj
  have hlt := hgood.1 e he
  omega

/-- Witness for C1 over a concrete sequence: two adds around a delete on an
initially empty section keep ids distinct. -/
theorem ids_spec_witness :
    ((run (mkSectionManager []) [Op.add ⟨2024, 1, 5⟩ "Food" "x" 5, Op.del 1,
      Op.add ⟨2024, 1, 6⟩ "Rent" "y" 7]).expenses.map (·.id)).Nodup :=
  (ids_spec [] [Op.add ⟨2024, 1, 5⟩ "Food" "x" 5, Op.del 1,
    Op.add ⟨2024, 1, 6⟩ "Rent" "y" 7] (by decide) (by decide)).2.1

/-! ## Lemmas: category aggregation -/

lemma catSum_cons (e : Expense) (es : List Expense) (c : String) :
    catSum (e :: es) c =
      (if e.category = c then e.amount else 0) + catSum es c := by
  by_cases h : e.category = c
  · rw [if_pos h]
    unfold catSum
    rw [List.filter_cons_of_pos (by simp [h])]
    simp
  · rw [if_neg h]
    unfold catSum
    rw [List.filter_cons_of_neg (by simp [h])]
    simp

lemma catSum_eq_zero_of_not_mem (es : List Expense) (c : String)
    (h : c ∉ es.map (·.category)) : catSum es c = 0 := by
  unfold catSum
  have : es.filter (fun e => e.category = c) = [] := by
    rw [List.filter_eq_nil]
    intro e he
    simp only [decide_eq_true_eq]
    intro hc
    exact h (hc ▸ List.mem_map_of_mem (·.category) he)
  rw [this]
  rfl

lemma addToCategory_lookup_self (l : List (String × ℚ)) (c : String) (a : ℚ) :
    (addToCategory l c a).lookup c = some ((l.lookup c).getD 0 + a) := by
  induction l with
  | nil => simp [addToCategory, List.lookup]
  | cons kv tl ih =>
    obtain ⟨k, v⟩ := kv
    by_cases hk : k = c
    · subst hk
      simp [addToCategory, List.lookup]
    · have hck : (c == k) = false := beq_eq_false_iff_ne.mpr (Ne.symm hk)
      simp only [addToCategory, if_neg hk, List.lookup, hck]
      exact ih

lemma addToCategory_lookup_ne (l : List (String × ℚ)) (c c' : String) (a : ℚ)
    (h : c' ≠ c) :
    (addToCategory l c a).lookup c' = l.lookup c' := by
  induction l with
  | nil =>
    have hcc : (c' == c) = false := beq_eq_false_iff_ne.mpr h
    simp [addToCategory, List.lookup, hcc]
  | cons kv tl ih =>
    obtain ⟨k, v⟩ := kv
    by_cases hk : k = c
    · subst hk
      have hcc : (c' == k) = false := beq_eq_false_iff_ne.mpr h
      simp [addToCategory, List.lookup, hcc]
    · simp only [addToCategory, if_neg hk, List.lookup]
      cases hck : c' == k
      · simp only [hck]; exact ih
      · simp only [hck]

lemma lookup_eq_none_iff (l : List (String × ℚ)) (c : String) :
    l.lookup c = none ↔ c ∉ l.map Prod.fst := by
  induction l with
  | nil => simp [List.lookup]
  | cons kv tl ih =>
    obtain ⟨k, v⟩ := kv
    by_cases hk : k = c
    · subst hk
      simp [List.lookup]
    · have hck : (c == k) = false := beq_eq_false_iff_ne.mpr (Ne.symm hk)
      simp only [List.lookup, hck, List.map_cons, List.mem_cons, ih]
      constructor
      · intro hnot hor
        rcases hor with h' | h'
        · exact hk h'.symm
        · exact hnot h'
      · intro hnot h'
        exact hnot (Or.inr h')

lemma addToCategory_keys (l : List (String × ℚ)) (c : String) (a : ℚ) :
    (addToCategory l c a).map Prod.fst =
      if c ∈ l.map Prod.fst then l.map Prod.fst
      else l.map Prod.fst ++ [c] := by
  induction l with
  | nil => simp [addToCategory]
  | cons kv tl ih =>
    obtain ⟨k, v⟩ := kv
    by_cases hk : k = c
    · subst hk
      simp [addToCategory]
    · simp only [addToCategory, if_neg hk, List.map_cons, ih]
      by_cases hc : c ∈ tl.map Prod.fst
      · rw [if_pos hc, if_pos (by simp [hc])]
      · rw [if_neg hc, if_neg (by simp [hc, Ne.symm hk])]
        rfl

lemma byCat_fold_lookup (es : List Expense) :
    ∀ (acc : List (String × ℚ)) (c : String),
    (es.foldl (fun l e => addToCategory l e.category e.amount) acc).lookup c =
      if c ∈ es.map (·.category)
      then some ((acc.lookup c).getD 0 + catSum es c)
      else acc.lookup c := by
  induction es with
  | nil => intro acc c; simp
  | cons e es ih =>
    intro acc c
    rw [List.foldl_cons]
    rw [ih (addToCategory acc e.category e.amount) c]
    by_cases hec : e.category = c
    · have hmem : c ∈ (e :: es).map (·.category) :=
        List.mem_map.mpr ⟨e, List.mem_cons_self e es, hec⟩
      rw [if_pos hmem]
      subst hec
      rw [addToCategory_lookup_self acc e.category e.amount]
      by_cases hmem' : e.category ∈ es.map (·.category)
      · rw [if_pos hmem']
        rw [catSum_cons, if_pos rfl]
        simp only [Option.getD_some]
        congr 1
        ring
      · rw [if_neg hmem']
        rw [catSum_cons, if_pos rfl,
          catSum_eq_zero_of_not_mem es e.category hmem']
        congr 1
        ring
    · rw [addToCategory_lookup_ne acc e.category c e.amount (Ne.symm hec)]
      have hmem : c ∈ (e :: es).map (·.category) ↔ c ∈ es.map (·.category) := by
        simp only [List.map_cons, List.mem_cons]
        constructor
        · rintro (h' | h')
          · exact absurd h'.symm hec
          · exact h'
        · exact Or.inr
      by_cases hmem' : c ∈ es.map (·.category)
      · rw [if_pos hmem', if_pos (hmem.mpr hmem')]
        rw [catSum_cons, if_neg hec, zero_add]
      · rw [if_neg hmem', if_neg (fun h' => hmem' (hmem.mp h'))]

lemma byCat_fold_keys_nodup (es : List Expense) :
    ∀ acc : List (String × ℚ), ((acc.map Prod.fst).Nodup) →
    (((es.foldl (fun l e => addToCategory l e.category e.amount) acc).map
      Prod.fst).Nodup) := by
  induction es with
  | nil => intro acc h; exact h
  | cons e es ih =>
    intro acc h
    rw [List.foldl_cons]
    apply ih
    rw [addToCategory_keys]
    by_cases hc : e.category ∈ acc.map Prod.fst
    · rw [if_pos hc]; exact h
    · rw [if_neg hc]
      rw [List.nodup_append]
      exact ⟨h, List.nodup_singleton _, by
        intro x hx hx'
        rcases List.mem_singleton.mp hx' with rfl
        exact hc hx⟩

lemma mem_iff_lookup (l : List (String × ℚ))
    (hnd : (l.map Prod.fst).Nodup) (c : String) (q : ℚ) :
    (c, q) ∈ l ↔ l.lookup c = some q := by
  induction l with
  | nil => simp [List.lookup]
  | cons kv tl ih =>
    obtain ⟨k, v⟩ := kv
    rw [List.map_cons, List.nodup_cons] at hnd
    obtain ⟨hk, htl⟩ := hnd
    by_cases hkc : k = c
    · subst hkc
      simp only [List.lookup, beq_self_eq_true, List.mem_cons,
        Prod.mk.injEq, Option.some.injEq]
      constructor
      · rintro (⟨-, rfl⟩ | h')
        · rfl
        · exact absurd (List.mem_map_of_mem Prod.fst h') hk
      · intro h'; exact Or.inl ⟨trivial, h'.symm⟩
    · have hck : (c == k) = false := beq_eq_false_iff_ne.mpr (Ne.symm hkc)
      simp only [List.lookup, hck, List.mem_cons, Prod.mk.injEq]
      rw [← ih htl]
      constructor
      · rintro (⟨h1, -⟩ | h')
        · exact absurd h1.symm hkc
        · exact h'
      · exact Or.inr

lemma byCategory_lookup (es : List Expense) (c : String) :
    (byCategory es).lookup c =
      if c ∈ es.map (·.category) then some (catSum es c) else none := by
  have h := byCat_fold_lookup es [] c
  simp only [List.lookup] at h
  unfold byCategory
  rw [h]
  split <;> simp

lemma byCategory_keys_nodup (es : List Expense) :
    ((byCategory es).map Prod.fst).Nodup :=
  byCat_fold_keys_nodup es [] (by simp)

lemma byCategory_mem_iff (es : List Expense) (c : String) (q : ℚ) :
    (c, q) ∈ byCategory es ↔
      (c ∈ es.map (·.category) ∧ q = catSum es c) := by
  rw [mem_iff_lookup (byCategory es) (byCategory_keys_nodup es) c q,
    byCategory_lookup]
  split
  · next hmem =>
    simp only [Option.some.injEq]
    constructor
    · intro h'; exact ⟨hmem, h'.symm⟩
    · intro h'; exact h'.2.symm
  · next hmem =>
    constructor
    · intro h'; cases h'
    · rintro ⟨h', -⟩; exact absurd h' hmem

lemma maxBySnd_mem (l : List (String × ℚ)) :
    ∀ cur : String × ℚ, maxBySnd cur l = cur ∨ maxBySnd cur l ∈ l := by
  induction l with
  | nil => intro cur; exact Or.inl rfl
  | cons x rest ih =>
    intro cur
    rw [maxBySnd]
    by_cases hlt : cur.2 < x.2
    · rw [if_pos hlt]
      rcases ih x with h' | h'
      · exact Or.inr (by rw [h']; exact List.mem_cons_self x rest)
      · exact Or.inr (List.mem_cons_of_mem _ h')
    · rw [if_neg hlt]
      rcases ih cur with h' | h'
      · exact Or.inl h'
      · exact Or.inr (List.mem_cons_of_mem _ h')

lemma maxBySnd_ge (l : List (String × ℚ)) :
    ∀ cur : String × ℚ, cur.2 ≤ (maxBySnd cur l).2 ∧
      ∀ p ∈ l, p.2 ≤ (maxBySnd cur l).2 := by
  induction l with
  | nil => intro cur; exact ⟨le_refl _, by intro p hp; cases hp⟩
  | cons x rest ih =>
    intro cur
    rw [maxBySnd]
    by_cases hlt : cur.2 < x.2
    · rw [if_pos hlt]
      obtain ⟨h1, h2⟩ := ih x
      refine ⟨le_trans (le_of_lt hlt) h1, ?_⟩
      intro p hp
      rcases List.mem_cons.mp hp with rfl | hp'
      · exact h1
      · exact h2 p hp'
    · rw [if_neg hlt]
      obtain ⟨h1, h2⟩ := ih cur
      refine ⟨h1, ?_⟩
      intro p hp
      rcases List.mem_cons.mp hp with rfl | hp'
      · exact le_trans (not_lt.mp hlt) h1
      · exact h2 p hp'

lemma byCategory_ne_nil (es : List Expense) (h : es ≠ []) :
    byCategory es ≠ [] := by
  cases es with
  | nil => exact absurd rfl h
  | cons e es' =>
    intro hnil
    have : (e.category, catSum (e :: es') e.category) ∈ byCategory (e :: es') :=
      (byCategory_mem_iff _ _ _).mpr ⟨by simp, rfl⟩
    rw [hnil] at this
    cases this

/-- C8 (amended): for every record list whose categories are non-empty
strings, `monthly_summary` returns the total as the sum of amounts,
`avg_per_day` as total over the number of distinct dates (divisor 1 when the
list is empty, so never a division by zero), and a top category appearing in
the records whose summed amount is maximal; on the empty list it returns
total 0, avg 0 and the sentinel "N/A" with amount 0. (Without the
non-emptiness proviso the claim fails: an empty-string top category is
masked by the sentinel, see the counterexample.) -/
theorem monthly_summary_spec (es : List Expense)
    (h : ∀ e ∈ es, e.category ≠ "") :
    (monthly_summary es).total = (es.map (·.amount)).sum ∧
    (monthly_summary es).avg_per_day = (es.map (·.amount)).sum /
      (((if (es.map (·.date)).toFinset.card = 0 then 1
         else (es.map (·.date)).toFinset.card) : ℕ) : ℚ) ∧
    monthly_summary [] = ⟨0, 0, "N/A", 0⟩ ∧
    (∀ c q, (c, q) ∈ byCategory es ↔
      (c ∈ es.map (·.category) ∧ q = catSum es c)) ∧
    (es ≠ [] →
      (monthly_summary es).top_category ∈ es.map (·.category) ∧
      ((monthly_summary es).top_category,
        (monthly_summary es).top_category_amount) ∈ byCategory es ∧
      (∀ p ∈ byCategory es, p.2 ≤ (monthly_summary es).top_category_amount)) := by
  refine ⟨rfl, rfl, ?_, fun c q => byCategory_mem_iff es c q, ?_⟩
  · have : ((0 : ℚ)) / ((1 : ℕ) : ℚ) = 0 := by norm_num
    simp [monthly_summary, byCategory, this]
  · intro hne
    cases hbc : byCategory es with
    | nil => exact absurd hbc (byCategory_ne_nil es hne)
    | cons x rest =>
      have hmemxr : maxBySnd x rest ∈ x :: rest := by
        rcases maxBySnd_mem rest x with h' | h'
        · rw [h']; exact List.mem_cons_self _ _
        · exact List.mem_cons_of_mem _ h'
      have hpmem : maxBySnd x rest ∈ byCategory es := by
        rw [hbc]; exact hmemxr
      have hpmem2 : ((maxBySnd x rest).1, (maxBySnd x rest).2) ∈
          byCategory es := by
        rw [Prod.mk.eta]; exact hpmem
      have hpair := (byCategory_mem_iff es (maxBySnd x rest).1
        (maxBySnd x rest).2).mp hpmem2
      have hkey : (maxBySnd x rest).1 ∈ es.map (·.category) := hpair.1
      have hnempty : (maxBySnd x rest).1 ≠ "" := by
        rcases List.mem_map.mp hkey with ⟨e, he, hec⟩
        exact hec ▸ h e he
      have htc : (monthly_summary es).top_category = (maxBySnd x rest).1 := by
        simp [monthly_summary, hbc, hnempty]
      have hta : (monthly_summary es).top_category_amount =
          (maxBySnd x rest).2 := by
        simp [monthly_summary, hbc]
      refine ⟨by rw [htc]; exact hkey, ?_, ?_⟩
      · rw [htc, hta, Prod.mk.eta]; exact hmemxr
      · intro p hp
        rw [hta]
        rcases List.mem_cons.mp hp with hpx | hp'
        · rw [hpx]; exact (maxBySnd_ge rest x).1
        · exact (maxBySnd_ge rest x).2 p hp'

/-- Witness for C8 on a concrete three-record list: the summary reports the
top category "A" (summed amount 8 over records of amounts 5 and 3) among the
record categories. -/
theorem monthly_summary_spec_witness :
    (monthly_summary [⟨1, ⟨2024, 1, 5⟩, "A", "x", 5⟩,
      ⟨2, ⟨2024, 1, 6⟩, "B", "y", 7⟩, ⟨3, ⟨2024, 1, 6⟩, "A", "z", 3⟩]).top_category ∈
      ([⟨1, ⟨2024, 1, 5⟩, "A", "x", 5⟩, ⟨2, ⟨2024, 1, 6⟩, "B", "y", 7⟩,
        ⟨3, ⟨2024, 1, 6⟩, "A", "z", 3⟩] : List Expense).map (·.category) :=
  ((monthly_summary_spec [⟨1, ⟨2024, 1, 5⟩, "A", "x", 5⟩,
      ⟨2, ⟨2024, 1, 6⟩, "B", "y", 7⟩, ⟨3, ⟨2024, 1, 6⟩, "A", "z", 3⟩]
      (by decide)).2.2.2.2 (by decide)).1

/-- Counterexample for C8 as stated: a single record whose category is the
empty string has its top category masked by the sentinel — the summary
reports "N/A" (with the correct amount 5), which is not a category of the
list, so the returned value is not "the top category with the largest
summed amount". -/
theorem monthly_summary_empty_category_cex :
    (monthly_summary [⟨1, ⟨2024, 1, 5⟩, "", "x", 5⟩]).top_category = "N/A" ∧
    "N/A" ∉ ([⟨1, ⟨2024, 1, 5⟩, "", "x", 5⟩] : List Expense).map (·.category) ∧
    (monthly_summary [⟨1, ⟨2024, 1, 5⟩, "", "x", 5⟩]).top_category_amount = 5 := by
  refine ⟨?_, by decide, ?_⟩ <;>
    simp [monthly_summary, byCategory, addToCategory, maxBySnd]

/-! ## Lemmas: decimal rendering and parsing -/

lemma digitVal_digitChar (n : ℕ) (h : n < 10) : digitVal (digitChar n) = n := by
  interval_cases n <;> rfl

lemma isDigit_digitChar (n : ℕ) (h : n < 10) : isDigit (digitChar n) = true := by
  interval_cases n <;> rfl

lemma isDigit_not_special (c : Char) (h : isDigit c = true) :
    c ≠ '-' ∧ c ≠ '+' ∧ c ≠ '.' := by
  refine ⟨?_, ?_, ?_⟩ <;> rintro rfl <;> exact absurd h (by decide)

lemma natDigits_ne_nil (n : ℕ) : natDigits n ≠ [] := by
  rw [natDigits]
  split
  · exact List.cons_ne_nil _ _
  · exact fun h => absurd h (List.append_ne_nil_of_right_ne_nil _
      (List.cons_ne_nil _ _))

lemma natDigits_all_isDigit (n : ℕ) : (natDigits n).all isDigit = true := by
  induction n using Nat.strong_induction_on with
  | _ n ih =>
    rw [natDigits]
    split
    · next h => simp [isDigit_digitChar n h]
    · next h =>
      rw [List.all_append]
      have h1 := ih (n / 10) (Nat.div_lt_self (by omega) (by omega))
      have h2 : isDigit (digitChar (n % 10)) = true :=
        isDigit_digitChar _ (Nat.mod_lt _ (by omega))
      simp [h1, h2]

lemma digitsToNat_from (l : List Char) : ∀ a : ℕ,
    l.foldl (fun a c => 10 * a + digitVal c) a =
      a * 10 ^ l.length + digitsToNat l := by
  induction l with
  | nil => intro a; simp [digitsToNat]
  | cons c cs ih =>
    intro a
    rw [List.foldl_cons]
    rw [ih (10 * a + digitVal c)]
    have h0 : digitsToNat (c :: cs) = digitVal c * 10 ^ cs.length +
        digitsToNat cs := by
      show List.foldl (fun a c => 10 * a + digitVal c)
        (10 * 0 + digitVal c) cs = _
      rw [ih (10 * 0 + digitVal c)]
      ring_nf
    rw [h0]
    simp [List.length_cons, pow_succ]
    ring

lemma digitsToNat_append (l1 l2 : List Char) :
    digitsToNat (l1 ++ l2) =
      digitsToNat l1 * 10 ^ l2.length + digitsToNat l2 := by
  unfold digitsToNat
  rw [List.foldl_append]
  exact digitsToNat_from l2 _

lemma digitsToNat_natDigits (n : ℕ) : digitsToNat (natDigits n) = n := by
  induction n using Nat.strong_induction_on with
  | _ n ih =>
    rw [natDigits]
    split
    · next h =>
      unfold digitsToNat
      simp [digitVal_digitChar n h]
    · next h =>
      rw [digitsToNat_append]
      rw [ih (n / 10) (Nat.div_lt_self (by omega) (by omega))]
      have : digitsToNat [digitChar (n % 10)] = n % 10 := by
        unfold digitsToNat
        simp [digitVal_digitChar _ (Nat.mod_lt _ (by omega : (0:ℕ) < 10))]
      rw [this]
      simp only [List.length_singleton, pow_one]
      omega

lemma parseNatChars_natDigits (n : ℕ) :
    parseNatChars (natDigits n) = some n := by
  unfold parseNatChars
  rw [if_pos ⟨natDigits_ne_nil n, natDigits_all_isDigit n⟩]
  rw [digitsToNat_natDigits]

lemma toList_mk (l : List Char) : (String.mk l).toList = l := rfl

lemma parseInt_intRepr (i : ℤ) : parseInt (intRepr i) = some i := by
  by_cases hneg : i < 0
  · unfold intRepr
    rw [if_pos hneg]
    have hred : parseInt (String.mk ('-' :: natDigits i.natAbs)) =
        (parseNatChars (natDigits i.natAbs)).map (fun n : ℕ => -(n : ℤ)) := rfl
    rw [hred, parseNatChars_natDigits]
    simp only [Option.map_some']
    congr 1
    omega
  · unfold intRepr
    rw [if_neg hneg]
    unfold natRepr
    cases hd : natDigits i.toNat with
    | nil => exact absurd hd (natDigits_ne_nil _)
    | cons c cs =>
      have hdig : isDigit c = true := by
        have := natDigits_all_isDigit i.toNat
        rw [hd, List.all_cons] at this
        exact (Bool.and_eq_true_iff.mp this).1
      have hred : parseInt (String.mk (c :: cs)) =
          if c = '-' then (parseNatChars cs).map (fun n : ℕ => -(n : ℤ))
          else (parseNatChars (c :: cs)).map (fun n : ℕ => (n : ℤ)) := rfl
      rw [hred, if_neg (isDigit_not_special c hdig).1, ← hd,
        parseNatChars_natDigits]
      simp only [Option.map_some']
      congr 1
      omega

/-! ## Lemmas: date formatting -/

lemma natDigits_length_le (w : ℕ) : ∀ n : ℕ, n < 10 ^ (w + 1) →
    (natDigits n).length ≤ w + 1 := by
  induction w with
  | zero =>
    intro n h
    rw [natDigits, dif_pos (by simpa using h)]
    simp
  | succ w ih =>
    intro n h
    by_cases h10 : n < 10
    · rw [natDigits, dif_pos h10]
      simp
    · rw [natDigits, dif_neg h10]
      rw [List.length_append, List.length_singleton]
      have hpow : (10 : ℕ) ^ (w + 1 + 1) = 10 * 10 ^ (w + 1) := by ring
      have hdiv : n / 10 < 10 ^ (w + 1) :=
        Nat.div_lt_of_lt_mul (by rw [hpow] at h; exact h)
      have := ih (n / 10) hdiv
      omega

lemma padNat_length (w n : ℕ) (h : (natDigits n).length ≤ w) :
    (padNat w n).length = w := by
  unfold padNat
  rw [List.length_append, List.length_replicate]
  omega

lemma padNat_all_isDigit (w n : ℕ) : (padNat w n).all isDigit = true := by
  unfold padNat
  rw [List.all_append]
  have h1 : (List.replicate (w - (natDigits n).length) '0').all isDigit
      = true := by
    rw [List.all_eq_true]
    intro c hc
    rw [List.eq_of_mem_replicate hc]
    rfl
  simp [h1, natDigits_all_isDigit n]

lemma digitsToNat_replicate_zero (k : ℕ) :
    digitsToNat (List.replicate k '0') = 0 := by
  induction k with
  | zero => rfl
  | succ k ih =>
    rw [List.replicate_succ]
    unfold digitsToNat
    rw [List.foldl_cons]
    have h0 : (10 * 0 + digitVal '0') = 0 := rfl
    rw [h0]
    exact ih

lemma digitsToNat_padNat (w n : ℕ) : digitsToNat (padNat w n) = n := by
  unfold padNat
  rw [digitsToNat_append, digitsToNat_replicate_zero, digitsToNat_natDigits]
  simp

lemma exists_len4 (l : List Char) (h : l.length = 4) :
    ∃ a b c d, l = [a, b, c, d] := by
  match l, h with
  | [a, b, c, d], _ => exact ⟨a, b, c, d, rfl⟩

lemma exists_len2 (l : List Char) (h : l.length = 2) :
    ∃ a b, l = [a, b] := by
  match l, h with
  | [a, b], _ => exact ⟨a, b, rfl⟩

lemma daysInMonth_le (y m : ℕ) : daysInMonth y m ≤ 31 := by
  unfold daysInMonth
  split
  · split <;> omega
  · split <;> omega

lemma fromisoformat_explicit (y1 y2 y3 y4 m1 m2 e1 e2 : Char) :
    Date.fromisoformat
        (String.mk [y1, y2, y3, y4, '-', m1, m2, '-', e1, e2]) =
      if ([y1, y2, y3, y4] ++ [m1, m2] ++ [e1, e2]).all isDigit ∧
          ('-' : Char) = '-' ∧ ('-' : Char) = '-' then
        (if (⟨digitsToNat [y1, y2, y3, y4], digitsToNat [m1, m2],
            digitsToNat [e1, e2]⟩ : Date).Valid then
          some ⟨digitsToNat [y1, y2, y3, y4], digitsToNat [m1, m2],
            digitsToNat [e1, e2]⟩
        else none)
      else none := rfl

lemma fromisoformat_isoformat (d : Date) (h : d.Valid) :
    Date.fromisoformat d.isoformat = some d := by
  obtain ⟨hy1, hy2, hm1, hm2, hd1, hd2⟩ := h
  have h10000 : (10 : ℕ) ^ 4 = 10000 := by norm_num
  have h100 : (10 : ℕ) ^ 2 = 100 := by norm_num
  have hylen : (natDigits d.year).length ≤ 4 :=
    natDigits_length_le 3 d.year (by omega)
  have hmlen : (natDigits d.month).length ≤ 2 :=
    natDigits_length_le 1 d.month (by omega)
  have hday31 : d.day ≤ 31 := le_trans hd2 (daysInMonth_le d.year d.month)
  have hdlen : (natDigits d.day).length ≤ 2 :=
    natDigits_length_le 1 d.day (by omega)
  obtain ⟨y1, y2, y3, y4, hy⟩ := exists_len4 _ (padNat_length 4 d.year hylen)
  obtain ⟨m1, m2, hm⟩ := exists_len2 _ (padNat_length 2 d.month hmlen)
  obtain ⟨e1, e2, he⟩ := exists_len2 _ (padNat_length 2 d.day hdlen)
  have hstring : d.isoformat =
      String.mk [y1, y2, y3, y4, '-', m1, m2, '-', e1, e2] := by
    unfold Date.isoformat
    rw [hy, hm, he]
    rfl
  have halldig : ([y1, y2, y3, y4] ++ [m1, m2] ++ [e1, e2]).all isDigit
      = true := by
    rw [← hy, ← hm, ← he, List.all_append, List.all_append]
    simp [padNat_all_isDigit]
  rw [hstring, fromisoformat_explicit]
  rw [if_pos ⟨halldig, rfl, rfl⟩]
  rw [← hy, ← hm, ← he, digitsToNat_padNat, digitsToNat_padNat,
    digitsToNat_padNat]
  have heta : (⟨d.year, d.month, d.day⟩ : Date) = d := rfl
  rw [heta]
  rw [if_pos ⟨hy1, hy2, hm1, hm2, hd1, hd2⟩]

/-! ## Lemmas: two-decimal amount formatting -/

lemma takeWhile_dot (l2 : List Char) : ∀ l1 : List Char,
    (∀ c ∈ l1, c ≠ '.') →
    (l1 ++ '.' :: l2).takeWhile (· ≠ '.') = l1 ∧
    (l1 ++ '.' :: l2).dropWhile (· ≠ '.') = '.' :: l2 := by
  intro l1
  induction l1 with
  | nil =>
    intro _
    constructor
    · rw [List.nil_append, List.takeWhile_cons]
      simp
    · rw [List.nil_append, List.dropWhile_cons]
      simp
  | cons c cs ih =>
    intro h
    have hc : c ≠ '.' := h c (List.mem_cons_self _ _)
    have hih := ih (fun x hx => h x (List.mem_cons_of_mem _ hx))
    constructor
    · rw [List.cons_append, List.takeWhile_cons, if_pos (by simpa using hc),
        hih.1]
    · rw [List.cons_append, List.dropWhile_cons, if_pos (by simpa using hc),
        hih.2]

lemma all_isDigit_no_dot (l : List Char) (h : l.all isDigit = true) :
    ∀ c ∈ l, c ≠ '.' := by
  intro c hc
  rw [List.all_eq_true] at h
  exact (isDigit_not_special c (h c hc)).2.2

lemma parseFloatCore_centsRepr (n : ℕ) :
    parseFloatCore (centsRepr n) = some ((n : ℚ) / 100) := by
  have hdig1 := natDigits_all_isDigit (n / 100)
  have hdig2 := padNat_all_isDigit 2 (n % 100)
  have hlen2 : (padNat 2 (n % 100)).length = 2 :=
    padNat_length 2 _ (natDigits_length_le 1 _ (by omega))
  have hsplit := takeWhile_dot (padNat 2 (n % 100)) (natDigits (n / 100))
    (all_isDigit_no_dot _ hdig1)
  unfold centsRepr parseFloatCore
  rw [hsplit.1, hsplit.2]
  show (if natDigits (n / 100) ++ padNat 2 (n % 100) ≠ [] ∧
      (natDigits (n / 100) ++ padNat 2 (n % 100)).all isDigit = true then
    some ((digitsToNat (natDigits (n / 100)) : ℚ) +
      (digitsToNat (padNat 2 (n % 100)) : ℚ) /
        (10 ^ (padNat 2 (n % 100)).length))
    else none) = some ((n : ℚ) / 100)
  rw [if_pos ⟨by
      intro hnil
      exact natDigits_ne_nil (n / 100) (List.append_eq_nil.mp hnil).1,
    by rw [List.all_append]; simp [hdig1, hdig2]⟩]
  have hmod : 100 * (n / 100) + n % 100 = n := Nat.div_add_mod n 100
  have h100 : ((10 : ℚ)) ^ (2 : ℕ) = 100 := by norm_num
  have hcast : (n : ℚ) = 100 * ((n / 100 : ℕ) : ℚ) + ((n % 100 : ℕ) : ℚ) := by
    exact_mod_cast hmod.symm
  rw [digitsToNat_natDigits, digitsToNat_padNat, hlen2, h100]
  congr 1
  rw [hcast]
  ring

lemma parseFloat_neg_red (l : List Char) :
    parseFloat (String.mk ('-' :: l)) =
      (parseFloatCore l).map (fun q => -q) := rfl

lemma parseFloat_cons_red (c : Char) (rest : List Char) :
    parseFloat (String.mk (c :: rest)) =
      if c = '-' then (parseFloatCore rest).map (fun q => -q)
      else if c = '+' then parseFloatCore rest
      else parseFloatCore (c :: rest) := rfl

lemma parseFloat_fmt2 (a : ℚ) :
    parseFloat (fmt2 a) = some ((cents a : ℚ) / 100) := by
  unfold fmt2
  by_cases hneg : cents a < 0
  · rw [if_pos hneg, parseFloat_neg_red, parseFloatCore_centsRepr]
    simp only [Option.map_some']
    congr 1
    have h1 : (((cents a).natAbs : ℤ)) = -(cents a) :=
      Int.ofNat_natAbs_of_nonpos (le_of_lt hneg)
    have habs : (((cents a).natAbs : ℕ) : ℚ) = -((cents a : ℤ) : ℚ) := by
      rw [← Int.cast_natCast (R := ℚ), h1, Int.cast_neg]
    rw [habs]
    ring
  · rw [if_neg hneg]
    cases hd : natDigits ((cents a).toNat / 100) with
    | nil => exact absurd hd (natDigits_ne_nil _)
    | cons c cs =>
      have hdig : isDigit c = true := by
        have := natDigits_all_isDigit ((cents a).toNat / 100)
        rw [hd, List.all_cons] at this
        exact (Bool.and_eq_true_iff.mp this).1
      have hshape : centsRepr (cents a).toNat =
          c :: (cs ++ '.' :: padNat 2 ((cents a).toNat % 100)) := by
        unfold centsRepr
        rw [hd]
        rfl
      rw [hshape, parseFloat_cons_red,
        if_neg (isDigit_not_special c hdig).1,
        if_neg (isDigit_not_special c hdig).2.1,
        ← List.cons_append, ← hd, ← centsRepr, parseFloatCore_centsRepr]
      congr 1
      rw [← Int.cast_natCast (R := ℚ), Int.toNat_of_nonneg (not_lt.mp hneg)]

lemma roundHalfEven_intCast (z : ℤ) : roundHalfEven (z : ℚ) = z := by
  unfold roundHalfEven
  rw [Int.floor_intCast]
  rw [if_pos (by norm_num)]

lemma cents_of_twoDecimal (a : ℚ) (h : TwoDecimal a) :
    (cents a : ℚ) = 100 * a := by
  obtain ⟨z, hz⟩ := h
  unfold cents
  rw [← hz, roundHalfEven_intCast]

lemma twoDecimal_div100 (z : ℤ) : TwoDecimal ((z : ℚ) / 100) :=
  ⟨z, by field_simp⟩

lemma parseFloat_fmt2_twoDecimal (a : ℚ) (h : TwoDecimal a) :
    parseFloat (fmt2 a) = some a := by
  rw [parseFloat_fmt2, cents_of_twoDecimal a h]
  congr 1
  field_simp

/-! ## Lemmas: row round trip -/

lemma from_row_explicit (c0 c1 c2 c3 c4 : String) :
    Expense.from_row [c0, c1, c2, c3, c4] =
      (do
        let i ← parseInt c0
        let d ← Date.fromisoformat c1
        let a ← parseFloat c4
        pure (⟨i, d, c2, c3, a⟩ : Expense)) := rfl

lemma from_row_to_row (e : Expense) (hd : e.date.Valid) :
    Expense.from_row e.to_row =
      some { e with amount := ((cents e.amount : ℤ) : ℚ) / 100 } := by
  show Expense.from_row [intRepr e.id, e.date.isoformat, e.category,
    e.description, fmt2 e.amount] = _
  rw [from_row_explicit, parseInt_intRepr, fromisoformat_isoformat e.date hd,
    parseFloat_fmt2]
  rfl

lemma loadRows_map_to_row (es : List Expense)
    (h : ∀ e ∈ es, e.date.Valid) :
    loadRows (es.map Expense.to_row) =
      es.map (fun e => { e with amount := ((cents e.amount : ℤ) : ℚ) / 100 }) := by
  induction es with
  | nil => rfl
  | cons e rest ih =>
    rw [List.map_cons, List.map_cons]
    unfold loadRows
    rw [if_pos (by rfl : (Expense.to_row e).length = 5)]
    rw [from_row_to_row e (h e (List.mem_cons_self _ _))]
    rw [ih (fun x hx => h x (List.mem_cons_of_mem _ hx))]

lemma fmt2_shape (a : ℚ) : ∃ pre d1 d2, (fmt2 a).toList =
    pre ++ ['.', d1, d2] ∧ isDigit d1 = true ∧ isDigit d2 = true := by
  have hsh : ∀ m : ℕ, ∃ d1 d2, centsRepr m =
      natDigits (m / 100) ++ ['.', d1, d2] ∧
      isDigit d1 = true ∧ isDigit d2 = true := by
    intro m
    obtain ⟨d1, d2, hp⟩ := exists_len2 _
      (padNat_length 2 (m % 100) (natDigits_length_le 1 _ (by omega)))
    have hall := padNat_all_isDigit 2 (m % 100)
    rw [hp] at hall
    simp only [List.all_cons, List.all_nil, Bool.and_eq_true] at hall
    refine ⟨d1, d2, ?_, hall.1, hall.2.1⟩
    unfold centsRepr
    rw [hp]
  unfold fmt2
  by_cases hneg : cents a < 0
  · rw [if_pos hneg]
    obtain ⟨d1, d2, hc, h1, h2⟩ := hsh (cents a).natAbs
    exact ⟨'-' :: natDigits ((cents a).natAbs / 100), d1, d2,
      by rw [toList_mk, hc]; rfl, h1, h2⟩
  · rw [if_neg hneg]
    obtain ⟨d1, d2, hc, h1, h2⟩ := hsh (cents a).toNat
    exact ⟨natDigits ((cents a).toNat / 100), d1, d2,
      by rw [toList_mk, hc], h1, h2⟩

/-- C6 (amended): a save/load cycle reproduces each record field for field
except that the amount is normalized to its two-decimal rounding (the file
stores `f"{amount:.2f}"`); when every amount is exactly representable with
two decimals the cycle is the identity, and the two-decimal formatting is
stable: a second save/load cycle is always the identity on the loaded data.
Dates must be valid calendar dates (as every date constructed by the
program is) for their ISO round trip. -/
theorem save_load_spec (es : List Expense) (hd : ∀ e ∈ es, e.date.Valid) :
    load_all (save_all es) = es.map
      (fun e => { e with amount := ((cents e.amount : ℤ) : ℚ) / 100 }) ∧
    ((∀ e ∈ es, TwoDecimal e.amount) → load_all (save_all es) = es) ∧
    load_all (save_all (load_all (save_all es))) = load_all (save_all es) ∧
    (∀ e ∈ es, ∃ pre d1 d2, (fmt2 e.amount).toList = pre ++ ['.', d1, d2] ∧
      isDigit d1 = true ∧ isDigit d2 = true) := by
  have h1 : load_all (save_all es) = es.map
      (fun e => { e with amount := ((cents e.amount : ℤ) : ℚ) / 100 }) := by
    have h0 : load_all (save_all es) =
        loadRows (es.map Expense.to_row) := rfl
    rw [h0, loadRows_map_to_row es hd]
  refine ⟨h1, ?_, ?_, fun e _ => fmt2_shape e.amount⟩
  · intro h2
    rw [h1]
    have hcong : ∀ e ∈ es,
        ({ e with amount := ((cents e.amount : ℤ) : ℚ) / 100 } : Expense)
          = e := by
      intro e he
      have hval : ((cents e.amount : ℤ) : ℚ) / 100 = e.amount := by
        rw [cents_of_twoDecimal e.amount (h2 e he)]
        field_simp
      show Expense.mk e.id e.date e.category e.description _ = e
      rw [hval]
    calc es.map (fun e =>
          ({ e with amount := ((cents e.amount : ℤ) : ℚ) / 100 } : Expense))
        = es.map id := List.map_congr_left hcong
      _ = es := List.map_id es
  · rw [h1]
    have hd' : ∀ e ∈ es.map
        (fun e => ({ e with amount := ((cents e.amount : ℤ) : ℚ) / 100 } :
          Expense)), e.date.Valid := by
      intro e he
      rcases List.mem_map.mp he with ⟨e0, he0, rfl⟩
      exact hd e0 he0
    have hmap : load_all (save_all (es.map
        (fun e => ({ e with amount := ((cents e.amount : ℤ) : ℚ) / 100 } :
          Expense)))) =
        (es.map (fun e =>
          ({ e with amount := ((cents e.amount : ℤ) : ℚ) / 100 } :
            Expense))).map
        (fun e => ({ e with amount := ((cents e.amount : ℤ) : ℚ) / 100 } :
          Expense)) := by
      have h0 : load_all (save_all (es.map
          (fun e => ({ e with amount := ((cents e.amount : ℤ) : ℚ) / 100 } :
            Expense)))) =
          loadRows ((es.map (fun e =>
            ({ e with amount := ((cents e.amount : ℤ) : ℚ) / 100 } :
              Expense))).map Expense.to_row) := rfl
      rw [h0, loadRows_map_to_row _ hd']
    rw [hmap, List.map_map]
    apply List.map_congr_left
    intro e _
    show ({ ({ e with amount := ((cents e.amount : ℤ) : ℚ) / 100 } : Expense)
      with amount := _ } : Expense) = _
    have htd : TwoDecimal (((cents e.amount : ℤ) : ℚ) / 100) :=
      twoDecimal_div100 _
    have hval : ((cents (((cents e.amount : ℤ) : ℚ) / 100) : ℤ) : ℚ) / 100 =
        ((cents e.amount : ℤ) : ℚ) / 100 := by
      rw [cents_of_twoDecimal _ htd]
      field_simp
    show Expense.mk e.id e.date e.category e.description _ = _
    rw [hval]

/-- Witness for C6 at a record with the two-decimal amount 12.50 and a
valid date: one save/load cycle is the identity. -/
theorem save_load_spec_witness :
    load_all (save_all [⟨1, ⟨2024, 1, 5⟩, "Food", "x", 25/2⟩]) =
      [⟨1, ⟨2024, 1, 5⟩, "Food", "x", 25/2⟩] :=
  (save_load_spec [⟨1, ⟨2024, 1, 5⟩, "Food", "x", 25/2⟩] (by decide)).2.1
    (by
      intro e he
      rw [List.mem_singleton] at he
      subst he
      exact ⟨1250, by norm_num⟩)

/-- Counterexample for C6 as stated: for the record with amount 1/3
(a value not representable with two decimals, as a Python float like
0.333 also is not) the save/load cycle yields amount 33/100, not 1/3 — so
`save_all` followed by `load_all` does not reproduce every non-empty record
list field for field. -/
theorem save_load_not_identity :
    load_all (save_all [⟨1, ⟨2024, 1, 5⟩, "Food", "x", 1/3⟩]) ≠
      [⟨1, ⟨2024, 1, 5⟩, "Food", "x", 1/3⟩] := by
  have hf : ⌊(100 : ℚ) * (1/3)⌋ = 33 := by
    rw [Int.floor_eq_iff]
    constructor <;> norm_num
  have hc : cents (1/3 : ℚ) = 33 := by
    simp only [cents, roundHalfEven, hf]
    norm_num
  have h1 : load_all (save_all
      [(⟨1, ⟨2024, 1, 5⟩, "Food", "x", 1/3⟩ : Expense)]) =
      [⟨1, ⟨2024, 1, 5⟩, "Food", "x", ((cents (1/3 : ℚ) : ℤ) : ℚ) / 100⟩] := by
    have h0 : load_all (save_all
        [(⟨1, ⟨2024, 1, 5⟩, "Food", "x", 1/3⟩ : Expense)]) =
        loadRows ([(⟨1, ⟨2024, 1, 5⟩, "Food", "x", 1/3⟩ : Expense)].map
          Expense.to_row) := rfl
    rw [h0, loadRows_map_to_row _ (by decide)]
    rfl
  rw [h1]
  intro heq
  have hamount := congrArg Expense.amount (List.head_eq_of_cons_eq heq)
  simp only at hamount
  rw [hc] at hamount
  norm_num at hamount

end HMS
